import Mathlib

/-!
# Verification of the Calva Clojure lexer core

This development embeds the lexer subsystem of the repository:

* the two lexical grammars (`toplevel`, `inString`) and their regular-expression
  rules, from `clojure-lexer` (src/unnamed/part_000, lines 50-97);
* the bracket-compatibility check `validPair` (lines 30-43);
* the stateful tokenizer `Scanner.processLine` (lines 114-165).

The rule-matching machinery (class `LexicalGrammar` / `Lexer` from the imported
`./lexer` module) is not part of the provided sources; it is modelled from the
specification (spec §4.1): rules are evaluated in table order, the first rule
whose pattern matches anchored exactly at the current position wins, the match
length determines the next position, and a no-match signal is produced when the
position reaches the length cap or no rule matches.

Strings are modelled as `List Char` (lines are decoded sequences of code
points); offsets count code points.  JavaScript regular-expression semantics
are embedded: alternation is ordered (leftmost alternative preferred),
quantifiers are greedy with backtracking, `.` matches any character except the
line terminators LF, CR, U+2028, U+2029, and `\s` is the ECMAScript whitespace
set (which includes U+2028/U+2029).
-/

/-- U+0027 APOSTROPHE (the quote character of the source regexes). -/
def cQuote : Char := Char.ofNat 39

/-- U+0060 GRAVE ACCENT (backquote). -/
def cBacktick : Char := Char.ofNat 96

/-- U+0022 QUOTATION MARK (double quote). -/
def cDQ : Char := Char.ofNat 34

/-- ECMAScript `\s`: WhiteSpace ∪ LineTerminator (code points). -/
def jsWsCodes : List Nat :=
  [9, 10, 11, 12, 13, 32, 160, 0x1680,
   0x2000, 0x2001, 0x2002, 0x2003, 0x2004, 0x2005, 0x2006, 0x2007,
   0x2008, 0x2009, 0x200a, 0x2028, 0x2029, 0x202f, 0x205f, 0x3000, 0xfeff]

def jsWs (c : Char) : Bool := jsWsCodes.contains c.toNat

/-- ECMAScript `.` (without the `s` flag): anything but a line terminator
(LF, CR, U+2028 LINE SEPARATOR, U+2029 PARAGRAPH SEPARATOR). -/
def jsDot (c : Char) : Bool :=
  !([10, 13, 0x2028, 0x2029].contains c.toNat)

/-- Regular expressions, as used by the lexer rules.  `cls` is a character
class, `str` a literal sequence, `lookbehind p` models `(?<=(^|[class]))`
(zero-width: succeeds at position 0 or when the previous character is in the
class), `alt` is ordered alternation and `star` a greedy Kleene star. -/
inductive Regex where
  | eps : Regex
  | cls : (Char → Bool) → Regex
  | str : List Char → Regex
  | cat : Regex → Regex → Regex
  | alt : Regex → Regex → Regex
  | star : Regex → Regex
  | lookbehind : (Char → Bool) → Regex

/-- All end positions of matches of `r` anchored at position `i` of `s`, in
JavaScript backtracking priority order: ordered alternation tries the left
branch first, and a greedy star tries to iterate before stopping (an
iteration must consume at least one character, as in JavaScript, which never
repeats an empty match).  The head of the list is the end position of the
match the JavaScript engine reports.  `fuel` bounds the recursion depth and is
chosen large enough (see `matchLen`) never to be exhausted on the rule set. -/
def mall : Nat → Regex → List Char → Nat → List Nat
  | 0, _, _, _ => []
  | _ + 1, .eps, _, i => [i]
  | _ + 1, .cls p, s, i =>
    match s[i]? with
    | some c => if p c then [i + 1] else []
    | none => []
  | _ + 1, .str cs, s, i =>
    if cs.isPrefixOf (s.drop i) then [i + cs.length] else []
  | fuel + 1, .cat a b, s, i =>
    (mall fuel a s i).flatMap (fun j => mall fuel b s j)
  | fuel + 1, .alt a b, s, i => mall fuel a s i ++ mall fuel b s i
  | fuel + 1, .star a, s, i =>
    (((mall fuel a s i).filter (fun j => i < j)).flatMap
      (fun j => mall fuel (.star a) s j)) ++ [i]
  | _ + 1, .lookbehind p, s, i =>
    if i = 0 then [i]
    else
      match s[i - 1]? with
      | some c => if p c then [i] else []
      | none => []

/-- Fuel that is always sufficient for the rule set on input `s` (the depth of
any backtracking path is bounded by the regex height plus the number of star
iterations, each of which consumes at least one character). -/
def fuelFor (s : List Char) : Nat := 32 * s.length + 64

/-- End position of the JavaScript match of `r` anchored at position `i`
of `s`, if any. -/
def matchLen (r : Regex) (s : List Char) (i : Nat) : Option Nat :=
  (mall (fuelFor s) r s i).head?

/-! ## The rule tables (src/unnamed/part_000 lines 50-97) -/

def rchar (c : Char) : Regex := .cls (fun x => x == c)

def plusR (r : Regex) : Regex := .cat r (.star r)

def optR (r : Regex) : Regex := .alt r .eps

/-- `[\t ,]` -/
def wsCommaCls (c : Char) : Bool := c == '\t' || c == ' ' || c == ','

/-- `[^\(\)\[\]\{\}"_@~\s,]` (the data-reader body class). -/
def readerBodyCls (c : Char) : Bool :=
  !(c == '(' || c == ')' || c == '[' || c == ']' || c == '{' || c == '}' ||
    c == cDQ || c == '_' || c == '@' || c == '~' || c == ',' || jsWs c)

/-- `[\s,]` -/
def spaceCommaCls (c : Char) : Bool := jsWs c || c == ','

/-- The lookbehind class `[\(\)\[\]\{\}\s,]`. -/
def lbCls (c : Char) : Bool :=
  c == '(' || c == ')' || c == '[' || c == ']' || c == '{' || c == '}' ||
  c == ',' || jsWs c

/-- `['`~#@?^]` -/
def prefOpenCls (c : Char) : Bool :=
  c == cQuote || c == cBacktick || c == '~' || c == '#' || c == '@' ||
  c == '?' || c == '^'

/-- `['`~#]` -/
def prefLitCls (c : Char) : Bool :=
  c == cQuote || c == cBacktick || c == '~' || c == '#'

/-- `['`~^]` -/
def prefKwCls (c : Char) : Bool :=
  c == cQuote || c == cBacktick || c == '~' || c == '^'

/-- `['`~#^@]` -/
def prefIdCls (c : Char) : Bool :=
  c == cQuote || c == cBacktick || c == '~' || c == '#' || c == '^' || c == '@'

/-- `[\(\[\{"]` -/
def openBracketCls (c : Char) : Bool :=
  c == '(' || c == '[' || c == '{' || c == cDQ

/-- `[\(\)\[\]\{\}]` -/
def bracketCls (c : Char) : Bool :=
  c == '(' || c == ')' || c == '[' || c == ']' || c == '{' || c == '}'

def digitCls (c : Char) : Bool := Nat.ble 48 c.toNat && Nat.ble c.toNat 57

def alnumCls (c : Char) : Bool :=
  digitCls c || (Nat.ble 97 c.toNat && Nat.ble c.toNat 122) ||
  (Nat.ble 65 c.toNat && Nat.ble c.toNat 90)

def rRCls (c : Char) : Bool := c == 'r' || c == 'R'

def signCls (c : Char) : Bool := c == '-' || c == '+'

def eECls (c : Char) : Bool := c == 'e' || c == 'E'

/-- `[^\(\)\[\]\{\}\s]` (character-literal body). -/
def charLitBodyCls (c : Char) : Bool := !(bracketCls c || jsWs c)

/-- `[^()[\]\{\},~@`^\"\s;]` (keyword body). -/
def kwBodyCls (c : Char) : Bool :=
  !(bracketCls c || c == ',' || c == '~' || c == '@' || c == cBacktick ||
    c == '^' || c == cDQ || c == ';' || jsWs c)

/-- `[^_()[\]\{\}#,~@'`^\"\s:;]` (first symbol character). -/
def idFirstCls (c : Char) : Bool :=
  !(c == '_' || bracketCls c || c == '#' || c == ',' || c == '~' ||
    c == '@' || c == cQuote || c == cBacktick || c == '^' || c == cDQ ||
    c == ':' || c == ';' || jsWs c)

/-- `[^()[\]\{\},~@`\"\s;]` (rest symbol characters). -/
def idRestCls (c : Char) : Bool :=
  !(bracketCls c || c == ',' || c == '~' || c == '@' || c == cBacktick ||
    c == cDQ || c == ';' || jsWs c)

/-- `[^\\"\t\r\n ]` (string-interior plain character). -/
def strInsideCls (c : Char) : Bool :=
  !(c == '\\' || c == cDQ || c == '\t' || c == '\r' || c == '\n' || c == ' ')

/-- `#[^\(\)\[\]\{\}"_@~\s,]+[\s,]*` — one pending-data-reader unit of the
open-paren and keyword rules. -/
def readerUnit : Regex :=
  .cat (rchar '#') (.cat (plusR (.cls readerBodyCls)) (.star (.cls spaceCommaCls)))

/-- line 50: `/[\t ,]+/` → ws -/
def wsRule : Regex := plusR (.cls wsCommaCls)

/-- line 52: `/(\r|\n|\r\n)/` → ws -/
def nlRule : Regex := .alt (.str ['\r']) (.alt (.str ['\n']) (.str ['\r', '\n']))

/-- line 54: `/;.*/` → comment -/
def commentRule : Regex := .cat (rchar ';') (.star (.cls jsDot))

/-- line 60:
`/(#[^\(\)\[\]\{\}"_@~\s,]+[\s,]*)*((?<=(^|[\(\)\[\]\{\}\s,]))['`~#@?^]\s*)*['`~#@?^]*[\(\[\{"]/`
→ open -/
def openRule : Regex :=
  .cat (.star readerUnit)
    (.cat (.star (.cat (.lookbehind lbCls)
                   (.cat (.cls prefOpenCls) (.star (.cls jsWs)))))
      (.cat (.star (.cls prefOpenCls)) (.cls openBracketCls)))

/-- line 62: `/\)|\]|\}/` → close -/
def closeRule : Regex := .alt (rchar ')') (.alt (rchar ']') (rchar '}'))

/-- line 65: `/#_/` → ignore -/
def ignoreRule : Regex := .str ['#', '_']

/-- line 68: `/(\\[^\(\)\[\]\{\}\s]+|\\[\(\)\[\]\{\}])/` → lit -/
def charLitRule : Regex :=
  .alt (.cat (rchar '\\') (plusR (.cls charLitBodyCls)))
    (.cat (rchar '\\') (.cls bracketCls))

/-- `(['`~#]\s*)*` — the quoting-prefix cluster of the literal rules. -/
def prefLitStar : Regex := .star (.cat (.cls prefLitCls) (.star (.cls jsWs)))

/-- line 72: `/(['`~#]\s*)*(true|false|nil)/` → lit -/
def litWordRule : Regex :=
  .cat prefLitStar
    (.alt (.str "true".data) (.alt (.str "false".data) (.str "nil".data)))

/-- line 73: `/(['`~#]\s*)*([0-9]+[rR][0-9a-zA-Z]+)/` → lit -/
def radixRule : Regex :=
  .cat prefLitStar
    (.cat (plusR (.cls digitCls)) (.cat (.cls rRCls) (plusR (.cls alnumCls))))

/-- line 74: `/(['`~#]\s*)*([-+]?[0-9]+(\.[0-9]+)?([eE][-+]?[0-9]+)?)/` → lit -/
def numberRule : Regex :=
  .cat prefLitStar
    (.cat (optR (.cls signCls))
      (.cat (plusR (.cls digitCls))
        (.cat (optR (.cat (rchar '.') (plusR (.cls digitCls))))
          (optR (.cat (.cls eECls)
            (.cat (optR (.cls signCls)) (plusR (.cls digitCls))))))))

/-- line 76:
`/(#[^\(\)\[\]\{\}"_@~\s,]+[\s,]*)*(['`~^]\s*)*(:[^()[\]\{\},~@`^\"\s;]*)/`
→ kw -/
def kwRule : Regex :=
  .cat (.star readerUnit)
    (.cat (.star (.cat (.cls prefKwCls) (.star (.cls jsWs))))
      (.cat (rchar ':') (.star (.cls kwBodyCls))))

/-- line 79: `/#[^\(\)\[\]\{\}"_@~\s,]+/` → reader -/
def readerRule : Regex := .cat (rchar '#') (plusR (.cls readerBodyCls))

/-- line 82: `/(['`~#^@]\s*)*([^_()[\]\{\}#,~@'`^\"\s:;][^()[\]\{},~@`\"\s;]*)/`
→ id -/
def idRule : Regex :=
  .cat (.star (.cat (.cls prefIdCls) (.star (.cls jsWs))))
    (.cat (.cls idFirstCls) (.star (.cls idRestCls)))

/-- line 85: `/./` → junk -/
def junkRule : Regex := .cls jsDot

/-- The 'toplevel' lexical grammar (lines 22-85), rules in declaration
order — table order is first-match-wins. -/
def toplevel : List (Regex × String) :=
  [(wsRule, "ws"), (nlRule, "ws"), (commentRule, "comment"),
   (openRule, "open"), (closeRule, "close"), (ignoreRule, "ignore"),
   (charLitRule, "lit"), (litWordRule, "lit"), (radixRule, "lit"),
   (numberRule, "lit"), (kwRule, "kw"), (readerRule, "reader"),
   (idRule, "id"), (junkRule, "junk")]

/-- line 91: `/"/` → close -/
def strCloseRule : Regex := rchar cDQ

/-- line 93: `/(\\.|[^\\"\t\r\n ])+/` → str-inside -/
def strInsideRule : Regex :=
  plusR (.alt (.cat (rchar '\\') (.cls jsDot)) (.cls strInsideCls))

/-- line 95: `/[\t ]+/` → ws -/
def strWsRule : Regex := plusR (.cls (fun c => c == '\t' || c == ' '))

/-- line 97: `/(\r?\n)/` → ws -/
def strNlRule : Regex := .cat (optR (rchar '\r')) (rchar '\n')

/-- The inside-string grammar (lines 89-97). -/
def inString : List (Regex × String) :=
  [(strCloseRule, "close"), (strInsideRule, "str-inside"),
   (strWsRule, "ws"), (strNlRule, "ws")]

/-! ## Tokens, scanner state (lines 45-47, 104-108) -/

/-- A lexer token (interface `Token` of `./lexer`): kind, the exact substring
consumed, and the code-point offset of its start within the line. -/
structure LexToken where
  type : String
  raw : List Char
  offset : Nat
deriving DecidableEq, Repr

/-- `ScannerState` (lines 104-108). -/
structure ScannerState where
  inString : Bool
  currentReaderToken : Option LexToken
deriving DecidableEq, Repr

/-- `Token extends LexerToken { state: ScannerState }` (lines 45-47). -/
structure Token extends LexToken where
  state : ScannerState
deriving DecidableEq, Repr

/-- The initial scanner state (lines 115-119). -/
def initialState : ScannerState := { inString := false, currentReaderToken := none }

/-! ## The line scanner, modelled from the spec (§4.1)

`Modelled from the spec:` the `LexicalGrammar`/`Lexer` classes of the imported
`./lexer` module are not among the provided source files.  Per spec §4.1,
`scan` evaluates the rules in table order and the first rule whose pattern
matches anchored exactly at the current position wins; its match's text
becomes the token's `raw`, the token kind is the rule's classifier result, and
a no-match signal is returned when the position has reached the length cap or
no rule matches (possible despite the catch-all only where noted). -/

/-- The substring of `s` from position `i` (inclusive) to `j` (exclusive). -/
def sl (s : List Char) (i j : Nat) : List Char := (s.drop i).take (j - i)

/-- First-match-wins over the rule table anchored at `pos`. -/
def firstRule (s : List Char) (pos : Nat) : List (Regex × String) → Option LexToken
  | [] => none
  | (r, ty) :: rest =>
    match matchLen r s pos with
    | some e => some { type := ty, raw := sl s pos e, offset := pos }
    | none => firstRule s pos rest

/-- `Modelled from the spec:` `scan(text, startPosition, lengthCap)`; no-match
when the position has reached the length cap or the end of the line (no rule
of either grammar matches the empty remainder), otherwise first-match-wins. -/
def scanRules (g : List (Regex × String)) (s : List Char) (cap : Nat)
    (pos : Nat) : Option LexToken :=
  if pos < s.length ∧ pos < cap then firstRule s pos g else none

/-! ## The stateful tokenizer (lines 114-165) -/

/-- Line 132: `tk.raw.match(/[~`'@#]*"$/)`.  The search is unanchored at the
left and `[~`'@#]*` may match the empty string, so the pattern succeeds
exactly when `raw` ends with a double quote. -/
def endsWithQuote (raw : List Char) : Bool := raw.getLast? == some cDQ

/-- The per-token state transition and emission decision of the body of the
`do`-loop (lines 130-160): the quote branch (132-145) switches grammar for
`open`/`close` and always emits; a `reader` token becomes the pending token
and is not emitted (146-148); with a pending token, whitespace and comments
are absorbed into it (150-152) and any other token is emitted merged —
pending raw + newline + current raw, at the pending offset — clearing the
pending state (153-157); otherwise the token is emitted as scanned.  Returns
the emitted token (if any) and the state after the token. -/
def stepToken (st : ScannerState) (tk : LexToken) : Option Token × ScannerState :=
  if endsWithQuote tk.raw then
    let st' : ScannerState :=
      if tk.type = "open" then { st with inString := true }
      else if tk.type = "close" then { st with inString := false }
      else st
    (some { toLexToken := tk, state := st' }, st')
  else if tk.type = "reader" then
    (none, { st with currentReaderToken := some tk })
  else
    match st.currentReaderToken with
    | some pend =>
      if tk.type = "ws" ∨ tk.type = "comment" then
        (none, { st with currentReaderToken := some { pend with raw := pend.raw ++ tk.raw } })
      else
        let merged : LexToken :=
          { type := tk.type, raw := pend.raw ++ '\n' :: tk.raw, offset := pend.offset }
        let st' : ScannerState := { st with currentReaderToken := none }
        (some { toLexToken := merged, state := st' }, st')
    | none => (some { toLexToken := tk, state := st }, st)

/-- The sentinel end-of-line token (lines 162-163). -/
def eolTok (line : List Char) (st : ScannerState) : Token :=
  { type := "eol", raw := ['\n'], offset := line.length, state := st }

/-- The `do`-loop of `processLine` (lines 128-161): scan with the grammar
selected by the current state (the grammar in use always agrees with
`state.inString`: both are switched together at lines 134-144), apply the
per-token transition, advance by the consumed length, and stop at the
no-match signal, appending the sentinel.  `fuel` bounds the iteration count;
`line.length + 1` iterations always suffice because every rule consumes at
least one character. -/
def processLoop (line : List Char) (cap : Nat) :
    Nat → Nat → ScannerState → List Token × ScannerState
  | 0, _, st => ([eolTok line st], st)
  | fuel + 1, pos, st =>
    match scanRules (if st.inString then inString else toplevel) line cap pos with
    | none => ([eolTok line st], st)
    | some tk =>
      let es := stepToken st tk
      let rest := processLoop line cap fuel (pos + tk.raw.length) es.2
      (match es.1 with
       | some t => t :: rest.1
       | none => rest.1, rest.2)

/-- `Scanner.processLine` (lines 123-165) as a function of the explicit
arguments: the line, the scanner's `maxLength` cap, and the start state.
Returns the emitted tokens (ending with the sentinel) and the state retained
by the scanner after the call. -/
def processLine (maxLength : Nat) (line : List Char) (state : ScannerState) :
    List Token × ScannerState :=
  processLoop line maxLength (line.length + 1) 0 state

/-- The `Scanner` class (lines 114-121): the `maxLength` constructor argument
and the retained mutable `state`. -/
structure Scanner where
  maxLength : Nat
  state : ScannerState
deriving DecidableEq, Repr

/-- `processLine(line: string, state: ScannerState = this.state)` — `stArg =
none` models a call that omits the state argument and uses the retained
state.  The returned `Scanner` carries the updated retained state. -/
def scannerProcess (sc : Scanner) (line : List Char)
    (stArg : Option ScannerState) : List Token × Scanner :=
  let st0 := stArg.getD sc.state
  let r := processLine sc.maxLength line st0
  (r.1, { sc with state := r.2 })

/-- Method form of `scannerProcess` (the `Scanner.processLine` method). -/
def Scanner.processLine (sc : Scanner) (line : List Char)
    (stArg : Option ScannerState) : List Token × Scanner :=
  scannerProcess sc line stArg

/-! ## `validPair` (lines 30-43) -/

/-- Lines 30-43: compares the last character of the opening token's raw text
(`open[open.length - 1]`, which for the empty string is `undefined`, here
`none`) against the closing text via the fixed switch. -/
def validPair (openS close : List Char) : Bool :=
  let openBracket : Option Char := openS.getLast?
  if close = [')'] then openBracket == some '('
  else if close = [']'] then openBracket == some '['
  else if close = ['}'] then openBracket == some '{'
  else if close = [cDQ] then openBracket == some cDQ
  else false

/-- Whether a regex can match the empty string. -/
def nullable : Regex → Bool
  | .eps => true
  | .cls _ => false
  | .str cs => cs.isEmpty
  | .cat a b => nullable a && nullable b
  | .alt a b => nullable a || nullable b
  | .star _ => true
  | .lookbehind _ => true

/-- The state after a token when no reader-token machinery is engaged: only
the string-grammar switch of lines 132-145 can change the state. -/
def cleanStep (st : ScannerState) (tk : LexToken) : ScannerState :=
  if endsWithQuote tk.raw then
    if tk.type = "open" then { st with inString := true }
    else if tk.type = "close" then { st with inString := false }
    else st
  else st

/-- `cleanRun line cap fuel pos st = true` holds when, scanning from `pos` in
state `st`, every scan succeeds until the end of the line is reached and no
`reader`-kind token is produced.  It mirrors the recursion of `processLoop`
exactly. -/
def cleanRun (line : List Char) (cap : Nat) : Nat → Nat → ScannerState → Bool
  | 0, _, _ => false
  | fuel + 1, pos, st =>
    if line.length ≤ pos then true
    else
      match scanRules (if st.inString then inString else toplevel) line cap pos with
      | none => false
      | some tk =>
        !(tk.type == "reader") &&
          cleanRun line cap fuel (pos + tk.raw.length) (stepToken st tk).2

/-- Offsets tile the line: each token starts where the previous one ended. -/
def tokChain (pos : Nat) : List Token → Bool
  | [] => true
  | t :: ts => t.offset == pos && tokChain (pos + t.raw.length) ts

/-- A line consisting of the single character U+2028 LINE SEPARATOR. -/
def sepLine : List Char := [Char.ofNat 0x2028]

/-- A scanner whose retained state has both a string flag and a stale pending
token, used to witness that the retained state is irrelevant. -/
def staleScanner : Scanner :=
  Scanner.mk 100
    (ScannerState.mk true (some (LexToken.mk "reader" "#x".data 3)))

/-- The raw text of a folded quoting-prefix cluster of the literal rules,
`(['`~#]\s*)*`: a list of blocks, each a character of the class `['`~#]`
followed by a run of `\s` characters. -/
def clusterOf (blocks : List (Char × List Char)) : List Char :=
  blocks.flatMap fun b => b.1 :: b.2

/-- Well-formedness of a literal-rule prefix cluster: every block head is in
`['`~#]` and every block tail character is ECMAScript whitespace. -/
def WFBlocks (blocks : List (Char × List Char)) : Prop :=
  ∀ b ∈ blocks, prefLitCls b.1 = true ∧ ∀ c ∈ b.2, jsWs c = true


/-! ## The match relation

`Mat s r i j` asserts that `r` matches the span `[i, j)` of `s` (with
lookbehind judged at the absolute position).  The executable matcher `mall`
is sound for it. -/

inductive Mat (s : List Char) : Regex → Nat → Nat → Prop where
  | eps : ∀ i, Mat s .eps i i
  | cls : ∀ {p : Char → Bool} {i c}, s[i]? = some c → p c = true →
      Mat s (.cls p) i (i + 1)
  | str : ∀ {cs i}, cs.isPrefixOf (s.drop i) = true →
      Mat s (.str cs) i (i + cs.length)
  | cat : ∀ {a b i m j}, Mat s a i m → Mat s b m j → Mat s (.cat a b) i j
  | altL : ∀ {a b i j}, Mat s a i j → Mat s (.alt a b) i j
  | altR : ∀ {a b i j}, Mat s b i j → Mat s (.alt a b) i j
  | starNil : ∀ {a} (i), Mat s (.star a) i i
  | starCons : ∀ {a i m j}, Mat s a i m → i < m → Mat s (.star a) m j →
      Mat s (.star a) i j
  | lb0 : ∀ {p : Char → Bool}, Mat s (.lookbehind p) 0 0
  | lbC : ∀ {p : Char → Bool} {i c}, s[i - 1]? = some c → p c = true →
      Mat s (.lookbehind p) i i

theorem mall_sound : ∀ (f : Nat) (r : Regex) (s : List Char) (i j : Nat),
    j ∈ mall f r s i → Mat s r i j := by
  intro f
  induction f with
  | zero => intro r s i j h; simp [mall] at h
  | succ f ih =>
    intro r s i j h
    cases r with
    | eps => simp [mall] at h; subst h; exact .eps _
    | cls p =>
      simp only [mall] at h
      cases hg : s[i]? with
      | none => rw [hg] at h; simp at h
      | some c =>
        rw [hg] at h
        by_cases hp : p c
        · simp [hp] at h; subst h; exact .cls hg hp
        · simp [hp] at h
    | str cs =>
      simp only [mall] at h
      by_cases hp : cs.isPrefixOf (s.drop i)
      · simp [hp] at h; subst h; exact .str hp
      · simp [hp] at h
    | cat a b =>
      simp only [mall, List.mem_flatMap] at h
      obtain ⟨m, hm, hj⟩ := h
      exact .cat (ih a s i m hm) (ih b s m j hj)
    | alt a b =>
      simp only [mall, List.mem_append] at h
      rcases h with h | h
      · exact .altL (ih a s i j h)
      · exact .altR (ih b s i j h)
    | star a =>
      simp only [mall, List.mem_append, List.mem_flatMap, List.mem_filter,
        List.mem_singleton] at h
      rcases h with ⟨m, ⟨hm, hlt⟩, hj⟩ | h
      · exact .starCons (ih a s i m hm) (by simpa using hlt) (ih _ s m j hj)
      · subst h; exact .starNil _
    | lookbehind p =>
      simp only [mall] at h
      by_cases h0 : i = 0
      · simp [h0] at h; subst h0; subst h; exact .lb0
      · rw [if_neg h0] at h
        cases hg : s[i - 1]? with
        | none => rw [hg] at h; simp at h
        | some c =>
          rw [hg] at h
          by_cases hp : p c
          · simp [hp] at h; subst h; exact .lbC hg hp
          · simp [hp] at h

theorem mat_le {s : List Char} {r : Regex} {i j : Nat} (h : Mat s r i j) :
    i ≤ j := by
  induction h with
  | eps => exact Nat.le_refl _
  | cls _ _ => omega
  | str _ => omega
  | cat _ _ ih1 ih2 => omega
  | altL _ ih => exact ih
  | altR _ ih => exact ih
  | starNil => exact Nat.le_refl _
  | starCons _ hlt _ ih1 ih2 => omega
  | lb0 => exact Nat.le_refl 0
  | lbC _ _ => exact Nat.le_refl _

theorem mat_within {s : List Char} {r : Regex} {i j : Nat} (h : Mat s r i j)
    (hi : i ≤ s.length) : j ≤ s.length := by
  induction h with
  | eps => exact hi
  | cls hg _ =>
    have hlt : _ < s.length := (List.getElem?_eq_some.mp hg).1
    omega
  | str hp =>
    rename_i cs i
    have h1 : cs.length ≤ (s.drop i).length := (List.isPrefixOf_iff_prefix.mp hp).length_le
    simp [List.length_drop] at h1
    omega
  | cat _ _ ih1 ih2 => exact ih2 (ih1 hi)
  | altL _ ih => exact ih hi
  | altR _ ih => exact ih hi
  | starNil => exact hi
  | starCons _ _ _ ih1 ih2 => exact ih2 (ih1 hi)
  | lb0 => exact hi
  | lbC _ _ => exact hi

theorem mat_nullable {s : List Char} {r : Regex} {i j : Nat}
    (h : Mat s r i j) : i = j → nullable r = true := by
  induction h with
  | eps => intro _; rfl
  | cls _ _ => intro hij; omega
  | str hp =>
    intro hij
    rename_i cs i
    have : cs.length = 0 := by omega
    simp [nullable, List.isEmpty_iff, List.length_eq_zero.mp this]
  | cat h1 h2 ih1 ih2 =>
    intro hij
    have l1 := mat_le h1
    have l2 := mat_le h2
    simp [nullable, ih1 (by omega), ih2 (by omega)]
  | altL _ ih => intro hij; simp [nullable, ih hij]
  | altR _ ih => intro hij; simp [nullable, ih hij]
  | starNil => intro _; rfl
  | starCons h1 hlt h2 ih1 ih2 =>
    intro hij
    have := mat_le h2
    omega
  | lb0 => intro _; rfl
  | lbC _ _ => intro _; rfl

theorem matchLen_sound {r : Regex} {s : List Char} {i e : Nat}
    (h : matchLen r s i = some e) : Mat s r i e := by
  unfold matchLen at h
  exact mall_sound _ r s i e (List.mem_of_mem_head? h)

theorem matchLen_pos {r : Regex} {s : List Char} {i e : Nat}
    (h : matchLen r s i = some e) (hn : nullable r = false) : i < e := by
  have hm := matchLen_sound h
  have := mat_le hm
  rcases Nat.lt_or_ge i e with h1 | h1
  · exact h1
  · have : i = e := by omega
    rw [mat_nullable hm this] at hn
    cases hn

/-! ## Slice lemmas -/

theorem sl_length {s : List Char} {i j : Nat} (hj : j ≤ s.length) :
    (sl s i j).length = j - i := by
  simp [sl, List.length_take, List.length_drop]
  omega

theorem sl_append {s : List Char} {i j k : Nat} (h1 : i ≤ j) (h2 : j ≤ k) :
    sl s i j ++ sl s j k = sl s i k := by
  unfold sl
  have hd : s.drop j = (s.drop i).drop (j - i) := by
    rw [List.drop_drop]
    congr 1
    omega
  rw [hd]
  have : k - i = (j - i) + (k - j) := by omega
  rw [this, List.take_add]

theorem sl_to_end (s : List Char) (i : Nat) : sl s i s.length = s.drop i := by
  unfold sl
  apply List.take_of_length_le
  simp [List.length_drop]

theorem sl_all (s : List Char) : sl s 0 s.length = s := by
  rw [sl_to_end, List.drop_zero]

theorem sl_head {s : List Char} {i j : Nat} {c : Char} (hij : i < j)
    (hg : s[i]? = some c) : sl s i j = c :: sl s (i + 1) j := by
  unfold sl
  obtain ⟨hlt, he⟩ := List.getElem?_eq_some.mp hg
  rw [List.drop_eq_getElem_cons hlt, he]
  have : j - i = (j - (i + 1)) + 1 := by omega
  rw [this, List.take_succ_cons]

theorem sl_getLast {s : List Char} {i j : Nat} {c : Char} (hij : i < j)
    (hj : j ≤ s.length) (hg : s[j - 1]? = some c) :
    (sl s i j).getLast? = some c := by
  have hlen : (sl s i j).length = j - i := sl_length hj
  have hne : sl s i j ≠ [] := by
    intro h
    rw [h] at hlen
    simp at hlen
    omega
  rw [List.getLast?_eq_getElem? ]
  have hidx : (sl s i j).length - 1 = j - i - 1 := by omega
  rw [hidx]
  have hlt : j - i - 1 < (sl s i j).length := by omega
  rw [List.getElem?_eq_getElem (by omega)]
  obtain ⟨hjl, he⟩ := List.getElem?_eq_some.mp hg
  unfold sl
  congr 1
  rw [List.getElem_take, List.getElem_drop]
  rw [← he]
  congr 1
  omega

/-! ## Scan lemmas -/

theorem firstRule_sound {s : List Char} {pos : Nat}
    {rs : List (Regex × String)} {tk : LexToken}
    (h : firstRule s pos rs = some tk) :
    ∃ r ty e, (r, ty) ∈ rs ∧ matchLen r s pos = some e ∧
      tk = { type := ty, raw := sl s pos e, offset := pos } := by
  induction rs with
  | nil => simp [firstRule] at h
  | cons p rest ih =>
    obtain ⟨r, ty⟩ := p
    rw [firstRule] at h
    cases hm : matchLen r s pos with
    | some e =>
      rw [hm] at h
      exact ⟨r, ty, e, by simp, hm, by cases h; rfl⟩
    | none =>
      rw [hm] at h
      obtain ⟨r', ty', e', hmem, hml, he⟩ := ih h
      exact ⟨r', ty', e', by simp [hmem], hml, he⟩

theorem firstRule_none {s : List Char} {pos : Nat}
    {rs : List (Regex × String)} (h : firstRule s pos rs = none) :
    ∀ r ty, (r, ty) ∈ rs → matchLen r s pos = none := by
  induction rs with
  | nil => intro r ty hm; simp at hm
  | cons p rest ih =>
    obtain ⟨r0, ty0⟩ := p
    rw [firstRule] at h
    cases hm : matchLen r0 s pos with
    | some e => rw [hm] at h; cases h
    | none =>
      rw [hm] at h
      intro r ty hmem
      rcases List.mem_cons.mp hmem with heq | hmem'
      · cases heq; exact hm
      · exact ih h r ty hmem'

theorem firstRule_append_some {s : List Char} {pos : Nat}
    {rs1 rs2 : List (Regex × String)} {tk : LexToken}
    (h : firstRule s pos rs1 = some tk) :
    firstRule s pos (rs1 ++ rs2) = some tk := by
  induction rs1 with
  | nil => simp [firstRule] at h
  | cons p rest ih =>
    obtain ⟨r0, ty0⟩ := p
    rw [List.cons_append, firstRule]
    rw [firstRule] at h
    cases hm : matchLen r0 s pos with
    | some e => rw [hm] at h; exact h
    | none => rw [hm] at h; exact ih h

theorem firstRule_append_none {s : List Char} {pos : Nat}
    {rs1 rs2 : List (Regex × String)} (h : firstRule s pos rs1 = none) :
    firstRule s pos (rs1 ++ rs2) = firstRule s pos rs2 := by
  induction rs1 with
  | nil => simp
  | cons p rest ih =>
    obtain ⟨r0, ty0⟩ := p
    rw [List.cons_append, firstRule]
    rw [firstRule] at h
    cases hm : matchLen r0 s pos with
    | some e => rw [hm] at h; exact Option.noConfusion h
    | none => rw [hm] at h; exact ih h

/-- Every rule of both grammars rejects the empty match. -/
theorem grammars_nonnull :
    (toplevel.all fun p => !nullable p.1) = true ∧
    (inString.all fun p => !nullable p.1) = true := by
  constructor <;> decide

theorem scan_sound {g : List (Regex × String)} {s : List Char} {cap pos : Nat}
    {tk : LexToken} (h : scanRules g s cap pos = some tk) :
    pos < s.length ∧ pos < cap ∧
    ∃ r ty e, (r, ty) ∈ g ∧ matchLen r s pos = some e ∧
      tk = { type := ty, raw := sl s pos e, offset := pos } := by
  unfold scanRules at h
  by_cases hc : pos < s.length ∧ pos < cap
  · rw [if_pos hc] at h
    exact ⟨hc.1, hc.2, firstRule_sound h⟩
  · rw [if_neg hc] at h
    cases h

/-- A successful scan of either grammar consumes at least one character and
stays within the line; its token records the consumed slice at the scan
position. -/
theorem scan_progress {g : List (Regex × String)} {s : List Char}
    {cap pos : Nat} {tk : LexToken}
    (hg : g = toplevel ∨ g = inString)
    (h : scanRules g s cap pos = some tk) :
    pos < s.length ∧ pos < cap ∧
    ∃ e, pos < e ∧ e ≤ s.length ∧ tk.raw = sl s pos e ∧ tk.offset = pos ∧
      pos + tk.raw.length = e ∧ tk.type ∈ g.map Prod.snd := by
  obtain ⟨hlt, hcap, r, ty, e, hmem, hml, htk⟩ := scan_sound h
  have hnn : nullable r = false := by
    have hall := grammars_nonnull
    rcases hg with hg | hg <;> subst hg
    · have := List.all_eq_true.mp hall.1 _ hmem
      simpa using this
    · have := List.all_eq_true.mp hall.2 _ hmem
      simpa using this
  have hpos : pos < e := matchLen_pos hml hnn
  have hwithin : e ≤ s.length := mat_within (matchLen_sound hml) (by omega)
  refine ⟨hlt, hcap, e, hpos, hwithin, by rw [htk], by rw [htk], ?_, ?_⟩
  · rw [htk]
    simp only
    rw [sl_length hwithin]
    omega
  · rw [htk]
    simp only
    exact List.mem_map.mpr ⟨(r, ty), hmem, rfl⟩

/-! ## Head-extraction helpers -/

theorem take_cons_head {s : List Char} {n : Nat} {c : Char} {l : List Char}
    (h : s.take n = c :: l) : s.head? = some c := by
  cases s with
  | nil => simp at h
  | cons a t =>
    cases n with
    | zero => simp at h
    | succ n => simp [List.take_succ_cons] at h; simp [h.1]

theorem sl_cons_head {s : List Char} {i j : Nat} {c : Char} {l : List Char}
    (h : sl s i j = c :: l) : s[i]? = some c := by
  unfold sl at h
  have := take_cons_head h
  rwa [List.head?_drop] at this

theorem str_head {c : Char} {cs l : List Char}
    (h : (c :: cs).isPrefixOf l = true) : l.head? = some c := by
  cases l with
  | nil => simp [List.isPrefixOf] at h
  | cons a t =>
    simp [List.isPrefixOf] at h
    simp [h.1]

/-! ## The per-token transition in a clean run -/

theorem stepToken_of_clean (st : ScannerState) (tk : LexToken)
    (hp : st.currentReaderToken = none) (hr : tk.type ≠ "reader") :
    stepToken st tk = (some { toLexToken := tk, state := cleanStep st tk },
      cleanStep st tk) := by
  unfold stepToken cleanStep
  by_cases hq : endsWithQuote tk.raw
  · simp [hq]
  · simp [hq, hr, hp]

theorem cleanStep_pending (st : ScannerState) (tk : LexToken)
    (hp : st.currentReaderToken = none) :
    (cleanStep st tk).currentReaderToken = none := by
  unfold cleanStep
  by_cases hq : endsWithQuote tk.raw
  · by_cases ho : tk.type = "open"
    · simp [hq, ho, hp]
    · by_cases hc : tk.type = "close" <;> simp [hq, ho, hc, hp]
  · simp [hq, hp]

/-! ## Clean runs: no reader-token activity and no mid-line scan failure -/

theorem eol_not_in_types :
    ("eol" ∉ toplevel.map Prod.snd) ∧ ("eol" ∉ inString.map Prod.snd) := by
  constructor <;> decide

/-- Main invariant of a clean run: the emitted tokens tile the line from the
current position, their raw texts concatenate to the rest of the line, none
of them is an `eol` token, the token list ends with exactly one sentinel, and
no reader token is pending at the end. -/
theorem loop_clean (line : List Char) (cap : Nat) :
    ∀ (fuel pos : Nat) (st : ScannerState), pos ≤ line.length →
    line.length ≤ cap → st.currentReaderToken = none →
    cleanRun line cap fuel pos st = true →
    ∃ main stF,
      processLoop line cap fuel pos st = (main ++ [eolTok line stF], stF) ∧
      tokChain pos main = true ∧
      (main.map fun t => t.raw).flatten = sl line pos line.length ∧
      (∀ t ∈ main, t.type ≠ "eol") ∧
      stF.currentReaderToken = none := by
  intro fuel
  induction fuel with
  | zero =>
    intro pos st _ _ _ hclean
    simp [cleanRun] at hclean
  | succ fuel ih =>
    intro pos st hpos hcap hp hclean
    rw [cleanRun] at hclean
    by_cases hend : line.length ≤ pos
    · have hpe : pos = line.length := by omega
      refine ⟨[], st, ?_, rfl, ?_, by simp, hp⟩
      · rw [processLoop]
        have hscan : scanRules (if st.inString then inString else toplevel)
            line cap pos = none := by
          unfold scanRules
          rw [if_neg]
          omega
        rw [hscan]
        simp
      · simp [hpe, sl]
    · rw [if_neg hend] at hclean
      cases hscan : scanRules (if st.inString then inString else toplevel)
          line cap pos with
      | none => rw [hscan] at hclean; simp at hclean
      | some tk =>
        rw [hscan] at hclean
        simp only [Bool.and_eq_true, Bool.not_eq_eq_eq_not, Bool.not_true,
          beq_eq_false_iff_ne, ne_eq] at hclean
        obtain ⟨hr, hclean'⟩ := hclean
        have hgq : (if st.inString then inString else toplevel) = toplevel ∨
            (if st.inString then inString else toplevel) = inString := by
          by_cases hs : st.inString <;> simp [hs]
        obtain ⟨hlt, hltc, e, hpe, hew, hraw, hoff, hlen, hty⟩ :=
          scan_progress hgq hscan
        have hstep := stepToken_of_clean st tk hp hr
        have hp' := cleanStep_pending st tk hp
        obtain ⟨main', stF, hloop, hchain, hflat, heol, hpf⟩ :=
          ih (pos + tk.raw.length) (cleanStep st tk) (by omega) hcap hp'
            (by rw [hstep] at hclean'; exact hclean')
        refine ⟨{ toLexToken := tk, state := cleanStep st tk } :: main', stF,
          ?_, ?_, ?_, ?_, hpf⟩
        · rw [processLoop, hscan]
          simp only [hstep, hloop, List.cons_append]
        · rw [tokChain]
          simp only [Bool.and_eq_true, beq_iff_eq]
          exact ⟨hoff, hchain⟩
        · simp only [List.map_cons, List.flatten_cons]
          rw [hraw] at hflat hlen ⊢
          rw [hflat, hlen]
          exact sl_append (by omega) (by omega)
        · intro t hmem
          rcases List.mem_cons.mp hmem with heq | hmem'
          · subst heq
            intro habs
            rcases hgq with hg | hg <;> rw [hg] at hty
            · exact eol_not_in_types.1 (habs ▸ hty)
            · exact eol_not_in_types.2 (habs ▸ hty)
          · exact heol t hmem'

theorem tokChain_snoc : ∀ (xs : List Token) (p : Nat) (t : Token),
    tokChain p xs = true →
    t.offset = p + ((xs.map fun u => u.raw).flatten).length →
    tokChain p (xs ++ [t]) = true := by
  intro xs
  induction xs with
  | nil =>
    intro p t _ hoff
    simp at hoff
    simp [tokChain, hoff]
  | cons x rest ih =>
    intro p t hchain hoff
    rw [tokChain] at hchain
    simp only [Bool.and_eq_true, beq_iff_eq] at hchain
    rw [List.cons_append, tokChain]
    simp only [Bool.and_eq_true, beq_iff_eq]
    refine ⟨hchain.1, ih _ t hchain.2 ?_⟩
    simp only [List.map_cons, List.flatten_cons, List.length_append] at hoff
    omega

/-- C1 (amended): for every line, every starting state with no pending
reader token, and every scanner cap at least the line length, if the run is
clean — no `reader` token is produced during the line and every scan step
succeeds until the end of the line (scans can fail mid-line only in string
mode at a backslash not followed by a matchable character, or in code mode
at U+2028/U+2029) — then the token list of `processLine` satisfies full
coverage: the raw texts concatenate to the line plus one newline, the
offsets tile the line with no gaps or overlaps, and the list ends with the
unique synthetic end-of-line token (raw a single newline, offset the line
length). -/
theorem processLine_full_coverage (line : List Char) (cap : Nat)
    (st0 : ScannerState) (hp : st0.currentReaderToken = none)
    (hcap : line.length ≤ cap)
    (hclean : cleanRun line cap (line.length + 1) 0 st0 = true) :
    ∃ main stF,
      processLine cap line st0 = (main ++ [eolTok line stF], stF) ∧
      tokChain 0 (main ++ [eolTok line stF]) = true ∧
      (((main ++ [eolTok line stF]).map fun t => t.raw).flatten = line ++ ['\n']) ∧
      (∀ t ∈ main, t.type ≠ "eol") := by
  obtain ⟨main, stF, h1, h2, h3, h4, _⟩ :=
    loop_clean line cap (line.length + 1) 0 st0 (by omega) hcap hp hclean
  rw [sl_all] at h3
  refine ⟨main, stF, h1, ?_, ?_, h4⟩
  · apply tokChain_snoc _ _ _ h2
    rw [h3]
    simp [eolTok]
  · rw [List.map_append, List.flatten_append, h3]
    simp [eolTok]

/-- C1 is false as stated: from the initial state, the single line
`#inst x` already violates full coverage — the reader token absorbs the
whitespace and is merged with `x` using an inserted newline separator, so
the concatenated raw texts are `#inst \nx\n`, not `#inst x\n`. -/
theorem processLine_coverage_cex :
    (((processLine 100 "#inst x".data initialState).1.map fun t => t.raw).flatten)
      ≠ "#inst x".data ++ ['\n'] := by decide

theorem processLine_full_coverage_witness :
    (initialState.currentReaderToken = none ∧ "(a)".data.length ≤ 100 ∧
      cleanRun "(a)".data 100 ("(a)".data.length + 1) 0 initialState = true) ∧
    (∃ main stF,
      processLine 100 "(a)".data initialState = (main ++ [eolTok "(a)".data stF], stF) ∧
      tokChain 0 (main ++ [eolTok "(a)".data stF]) = true ∧
      (((main ++ [eolTok "(a)".data stF]).map fun t => t.raw).flatten =
        "(a)".data ++ ['\n']) ∧
      (∀ t ∈ main, t.type ≠ "eol")) :=
  ⟨⟨rfl, by decide, by decide⟩,
    processLine_full_coverage "(a)".data 100 initialState rfl (by decide) (by decide)⟩

/-- C3: the two-line input `(println "hello` / `world")` leaves
`inString = true` after the first line, `inString = false` after the second,
and both fragments `hello` and `world` carry the string-interior kind. -/
theorem string_spanning :
    (processLine 100 "(println \"hello".data initialState).2.inString = true ∧
    (processLine 100 "world\")".data
        (processLine 100 "(println \"hello".data initialState).2).2.inString = false ∧
    ("str-inside", "hello".data) ∈
      ((processLine 100 "(println \"hello".data initialState).1.map
        fun t => (t.type, t.raw)) ∧
    ("str-inside", "world".data) ∈
      ((processLine 100 "world\")".data
          (processLine 100 "(println \"hello".data initialState).2).1.map
        fun t => (t.type, t.raw)) := by decide

/-- C4: evaluated on the claimed scenario (`#inst` alone, then
`"2020-01-01"`), the second `processLine` call does NOT emit a single merged
token `#inst` + newline + `"2020-01-01"`: the opening quote is emitted as its
own unmerged `open` token (the string-transition branch, lines 132-145,
preempts the reader-merge branch), the pending tag is merged with the string
interior `2020-01-01` instead, and the closing quote is emitted separately. -/
theorem reader_tag_merge_divergence :
    ((processLine 100 "\"2020-01-01\"".data
        (processLine 100 "#inst".data initialState).2).1.map
      fun t => (t.type, t.raw, t.offset)) =
    [("open", [cDQ], 0),
     ("str-inside", "#inst\n2020-01-01".data, 0),
     ("close", [cDQ], 11),
     ("eol", ['\n'], 12)] := by decide

/-- C9: evaluated on `#inst` followed by `"`, the state returned after the
second line has `inString = true` while a reader token is still pending —
the two flags the code documents as mutually exclusive (line 116:
`TODO: These should never be both true`) are simultaneously active. -/
theorem state_flags_divergence :
    (processLine 100 "\"".data
        (processLine 100 "#inst".data initialState).2).2.inString = true ∧
    (processLine 100 "\"".data
        (processLine 100 "#inst".data initialState).2).2.currentReaderToken =
      some { type := "reader", raw := "#inst".data, offset := 0 } := by decide

/-- C2: resuming from a captured state is equivalent to continuous scanning —
threading the scanner's retained state through `L1` then `L2` yields for `L2`
exactly the tokens and final state of an independent `processLine` call on
any scanner with the same cap, passed the state captured after `L1`. -/
theorem resumability (sc sc2 : Scanner) (L1 L2 : List Char)
    (hm : sc2.maxLength = sc.maxLength) :
    (((sc.processLine L1 none).2.processLine L2 none).1 =
      (sc2.processLine L2 (some (sc.processLine L1 none).2.state)).1) ∧
    (((sc.processLine L1 none).2.processLine L2 none).2.state =
      (sc2.processLine L2 (some (sc.processLine L1 none).2.state)).2.state) := by
  unfold Scanner.processLine scannerProcess
  simp [hm]

theorem resumability_witness :
    ((Scanner.mk 100 { inString := true, currentReaderToken := none }).maxLength =
      (Scanner.mk 100 initialState).maxLength) ∧
    ((((Scanner.mk 100 initialState).processLine "(println \"hello".data none).2.processLine
        "world\")".data none).1 =
      ((Scanner.mk 100 { inString := true, currentReaderToken := none }).processLine
        "world\")".data
        (some (((Scanner.mk 100 initialState).processLine
          "(println \"hello".data none).2.state))).1) :=
  ⟨rfl, (resumability (Scanner.mk 100 initialState)
    (Scanner.mk 100 { inString := true, currentReaderToken := none })
    "(println \"hello".data "world\")".data rfl).1⟩

/-- C8: `processLine` is pure with respect to its explicit state parameter —
its tokens and resulting state depend only on the line, the cap and the
passed state, never on the scanner's retained state (or any prior calls). -/
theorem processLine_state_pure (sc1 sc2 : Scanner) (line : List Char)
    (s : ScannerState) (hm : sc1.maxLength = sc2.maxLength) :
    ((sc1.processLine line (some s)).1 = (sc2.processLine line (some s)).1) ∧
    ((sc1.processLine line (some s)).2.state =
      (sc2.processLine line (some s)).2.state) := by
  unfold Scanner.processLine scannerProcess
  simp [hm]

theorem processLine_state_pure_witness :
    ((Scanner.mk 100 initialState).maxLength = staleScanner.maxLength) ∧
    (((Scanner.mk 100 initialState).processLine "(a)".data (some initialState)).1 =
      (staleScanner.processLine "(a)".data (some initialState)).1) :=
  ⟨rfl, (processLine_state_pure (Scanner.mk 100 initialState) staleScanner
    "(a)".data initialState rfl).1⟩

/-- C6: for a non-empty opening text and a one-character closer, `validPair`
is true exactly for the fixed correspondences on the last character of the
opening text; the four concrete checks of the spec hold. -/
theorem validPair_spec :
    (∀ (openS : List Char) (c : Char), openS ≠ [] →
      (validPair openS [c] = true ↔
        ((c = ')' ∧ openS.getLast? = some '(') ∨
         (c = ']' ∧ openS.getLast? = some '[') ∨
         (c = '}' ∧ openS.getLast? = some '{') ∨
         (c = cDQ ∧ openS.getLast? = some cDQ)))) ∧
    validPair "(".data ")".data = true ∧
    validPair (cQuote :: "(".data) ")".data = true ∧
    validPair "(".data "]".data = false ∧
    validPair [cDQ] [cDQ] = true := by
  refine ⟨?_, by decide, by decide, by decide, by decide⟩
  intro openS c hne
  unfold validPair
  by_cases h1 : c = ')'
  · subst h1
    simp +decide
  · by_cases h2 : c = ']'
    · subst h2
      simp +decide
    · by_cases h3 : c = '}'
      · subst h3
        simp +decide
      · by_cases h4 : c = cDQ
        · subst h4
          simp +decide
        · simp [h1, h2, h3, h4]

theorem validPair_spec_witness :
    ((['('] : List Char) ≠ []) ∧
    (validPair ['('] [')'] = true ↔
      ((')' = ')' ∧ (['('] : List Char).getLast? = some '(') ∨
       (')' = ']' ∧ (['('] : List Char).getLast? = some '[') ∨
       (')' = '}' ∧ (['('] : List Char).getLast? = some '{') ∨
       (')' = cDQ ∧ (['('] : List Char).getLast? = some cDQ))) :=
  ⟨by decide, validPair_spec.1 ['('] ')' (by decide)⟩

/-- C10: with an empty opening text the last-character lookup yields no
bracket (`open[open.length - 1]` is `undefined`), so `validPair` returns
false for every closing text, completing normally. -/
theorem validPair_empty (close : List Char) : validPair [] close = false := by
  unfold validPair
  split_ifs <;> simp

/-! ## Inversion lemmas for the match relation -/

theorem mat_eps_inv {s : List Char} {i j : Nat} (h : Mat s .eps i j) : j = i := by
  cases h
  rfl

theorem mat_cls_inv {s : List Char} {p : Char → Bool} {i j : Nat}
    (h : Mat s (.cls p) i j) :
    j = i + 1 ∧ ∃ c, s[i]? = some c ∧ p c = true := by
  cases h with
  | cls hg hp => exact ⟨rfl, _, hg, hp⟩

theorem mat_str_inv {s cs : List Char} {i j : Nat} (h : Mat s (.str cs) i j) :
    j = i + cs.length ∧ cs.isPrefixOf (s.drop i) = true := by
  cases h with
  | str hp => exact ⟨rfl, hp⟩

theorem mat_cat_inv {s : List Char} {a b : Regex} {i j : Nat}
    (h : Mat s (.cat a b) i j) : ∃ m, Mat s a i m ∧ Mat s b m j := by
  cases h with
  | cat h1 h2 => exact ⟨_, h1, h2⟩

theorem mat_alt_inv {s : List Char} {a b : Regex} {i j : Nat}
    (h : Mat s (.alt a b) i j) : Mat s a i j ∨ Mat s b i j := by
  cases h with
  | altL h1 => exact Or.inl h1
  | altR h1 => exact Or.inr h1

theorem mat_star_inv {s : List Char} {a : Regex} {i j : Nat}
    (h : Mat s (.star a) i j) :
    i = j ∨ ∃ m, Mat s a i m ∧ i < m ∧ Mat s (.star a) m j := by
  cases h with
  | starNil => exact Or.inl rfl
  | starCons h1 hlt h2 => exact Or.inr ⟨_, h1, hlt, h2⟩

/-- First consumed character of a `cat` headed by a character class. -/
theorem mat_head_cls {s : List Char} {p : Char → Bool} {b : Regex} {i j : Nat}
    (h : Mat s (.cat (.cls p) b) i j) : ∃ c, s[i]? = some c ∧ p c = true := by
  obtain ⟨m, h1, _⟩ := mat_cat_inv h
  exact (mat_cls_inv h1).2

/-- A `(star (cls p ...)) r` sequence starts either with `r` directly or with
a character of class `p`. -/
theorem mat_head_clsStar {s : List Char} {p : Char → Bool} {w r : Regex}
    {i j : Nat} (h : Mat s (.cat (.star (.cat (.cls p) w)) r) i j) :
    Mat s r i j ∨ ∃ c, s[i]? = some c ∧ p c = true := by
  obtain ⟨m, h1, h2⟩ := mat_cat_inv h
  rcases mat_star_inv h1 with heq | ⟨m', hb, _, _⟩
  · exact Or.inl (heq ▸ h2)
  · exact Or.inr (mat_head_cls hb)

theorem drop_cons_of_getElem {s : List Char} {i : Nat} {c : Char}
    (hg : s[i]? = some c) : s.drop i = c :: s.drop (i + 1) := by
  obtain ⟨hlt, he⟩ := List.getElem?_eq_some.mp hg
  rw [List.drop_eq_getElem_cons hlt, he]

/-! ## First/last-character facts for the toplevel rules -/

theorem wsRule_head {s : List Char} {i e : Nat}
    (h : matchLen wsRule s i = some e) :
    ∃ c, s[i]? = some c ∧ wsCommaCls c = true :=
  mat_head_cls (matchLen_sound h)

theorem nlRule_head {s : List Char} {i e : Nat}
    (h : matchLen nlRule s i = some e) :
    ∃ c, s[i]? = some c ∧ (c = '\r' ∨ c = '\n') := by
  have hm := matchLen_sound h
  unfold nlRule at hm
  rcases mat_alt_inv hm with h1 | h1
  · obtain ⟨-, hp⟩ := mat_str_inv h1
    have := str_head hp
    rw [List.head?_drop] at this
    exact ⟨'\r', this, Or.inl rfl⟩
  · rcases mat_alt_inv h1 with h2 | h2
    · obtain ⟨-, hp⟩ := mat_str_inv h2
      have := str_head hp
      rw [List.head?_drop] at this
      exact ⟨'\n', this, Or.inr rfl⟩
    · obtain ⟨-, hp⟩ := mat_str_inv h2
      have := str_head hp
      rw [List.head?_drop] at this
      exact ⟨'\r', this, Or.inl rfl⟩

theorem commentRule_head {s : List Char} {i e : Nat}
    (h : matchLen commentRule s i = some e) :
    ∃ c, s[i]? = some c ∧ (c == ';') = true :=
  mat_head_cls (matchLen_sound h)

theorem openRule_last {s : List Char} {i e : Nat}
    (h : matchLen openRule s i = some e) :
    ∃ c, s[e - 1]? = some c ∧ openBracketCls c = true := by
  have hm := matchLen_sound h
  unfold openRule at hm
  obtain ⟨m1, -, h1⟩ := mat_cat_inv hm
  obtain ⟨m2, -, h2⟩ := mat_cat_inv h1
  obtain ⟨m3, -, h3⟩ := mat_cat_inv h2
  obtain ⟨he, c, hg, hp⟩ := mat_cls_inv h3
  refine ⟨c, ?_, hp⟩
  have : e - 1 = m3 := by omega
  rw [this]
  exact hg

theorem closeRule_head {s : List Char} {i e : Nat}
    (h : matchLen closeRule s i = some e) :
    ∃ c, s[i]? = some c ∧ (c = ')' ∨ c = ']' ∨ c = '}') := by
  have hm := matchLen_sound h
  unfold closeRule at hm
  rcases mat_alt_inv hm with h1 | h1
  · obtain ⟨-, c, hg, hp⟩ := mat_cls_inv h1
    exact ⟨c, hg, Or.inl (by simpa using hp)⟩
  · rcases mat_alt_inv h1 with h2 | h2
    · obtain ⟨-, c, hg, hp⟩ := mat_cls_inv h2
      exact ⟨c, hg, Or.inr (Or.inl (by simpa using hp))⟩
    · obtain ⟨-, c, hg, hp⟩ := mat_cls_inv h2
      exact ⟨c, hg, Or.inr (Or.inr (by simpa using hp))⟩

theorem ignoreRule_head {s : List Char} {i e : Nat}
    (h : matchLen ignoreRule s i = some e) : s[i]? = some '#' := by
  have hm := matchLen_sound h
  unfold ignoreRule at hm
  obtain ⟨-, hp⟩ := mat_str_inv hm
  have := str_head hp
  rwa [List.head?_drop] at this

theorem charLitRule_head {s : List Char} {i e : Nat}
    (h : matchLen charLitRule s i = some e) :
    ∃ c, s[i]? = some c ∧ (c == '\\') = true := by
  have hm := matchLen_sound h
  unfold charLitRule at hm
  rcases mat_alt_inv hm with h1 | h1 <;> exact mat_head_cls h1

theorem radixRule_head {s : List Char} {i e : Nat}
    (h : matchLen radixRule s i = some e) :
    ∃ c, s[i]? = some c ∧ (prefLitCls c = true ∨ digitCls c = true) := by
  have hm := matchLen_sound h
  unfold radixRule prefLitStar at hm
  rcases mat_head_clsStar hm with h1 | ⟨c, hg, hp⟩
  · obtain ⟨m, h2, -⟩ := mat_cat_inv h1
    obtain ⟨c, hg, hp⟩ := mat_head_cls h2
    exact ⟨c, hg, Or.inr hp⟩
  · exact ⟨c, hg, Or.inl hp⟩

theorem numberRule_head {s : List Char} {i e : Nat}
    (h : matchLen numberRule s i = some e) :
    ∃ c, s[i]? = some c ∧
      (prefLitCls c = true ∨ signCls c = true ∨ digitCls c = true) := by
  have hm := matchLen_sound h
  unfold numberRule prefLitStar optR at hm
  rcases mat_head_clsStar hm with h1 | ⟨c, hg, hp⟩
  · obtain ⟨m, h2, h3⟩ := mat_cat_inv h1
    rcases mat_alt_inv h2 with h4 | h4
    · obtain ⟨-, c, hg, hp⟩ := mat_cls_inv h4
      exact ⟨c, hg, Or.inr (Or.inl hp)⟩
    · have hmi := mat_eps_inv h4
      subst hmi
      obtain ⟨m2, h5, -⟩ := mat_cat_inv h3
      obtain ⟨c, hg, hp⟩ := mat_head_cls h5
      exact ⟨c, hg, Or.inr (Or.inr hp)⟩
  · exact ⟨c, hg, Or.inl hp⟩

theorem kwRule_head {s : List Char} {i e : Nat}
    (h : matchLen kwRule s i = some e) :
    ∃ c, s[i]? = some c ∧
      ((c == '#') = true ∨ prefKwCls c = true ∨ (c == ':') = true) := by
  have hm := matchLen_sound h
  unfold kwRule readerUnit rchar at hm
  rcases mat_head_clsStar hm with h1 | ⟨c, hg, hp⟩
  · rcases mat_head_clsStar h1 with h2 | ⟨c, hg, hp⟩
    · obtain ⟨c, hg, hp⟩ := mat_head_cls h2
      exact ⟨c, hg, Or.inr (Or.inr hp)⟩
    · exact ⟨c, hg, Or.inr (Or.inl hp)⟩
  · exact ⟨c, hg, Or.inl hp⟩

theorem readerRule_head {s : List Char} {i e : Nat}
    (h : matchLen readerRule s i = some e) :
    ∃ c, s[i]? = some c ∧ (c == '#') = true := by
  have hm := matchLen_sound h
  unfold readerRule rchar at hm
  exact mat_head_cls hm

theorem junkRule_len {s : List Char} {i e : Nat}
    (h : matchLen junkRule s i = some e) : e = i + 1 := by
  have hm := matchLen_sound h
  unfold junkRule at hm
  exact (mat_cls_inv hm).1

theorem junk_matches {s : List Char} {i : Nat} {c : Char}
    (hg : s[i]? = some c) (hc : jsDot c = true) :
    matchLen junkRule s i = some (i + 1) := by
  unfold matchLen junkRule
  obtain ⟨f, hf⟩ : ∃ f, fuelFor s = f + 1 := ⟨fuelFor s - 1, by unfold fuelFor; omega⟩
  rw [hf]
  simp [mall, hg, hc]

theorem nl_matches {s : List Char} {i : Nat} {c : Char}
    (hg : s[i]? = some c) (hc : c = '\r' ∨ c = '\n') :
    (matchLen nlRule s i).isSome = true := by
  unfold matchLen nlRule
  obtain ⟨f, hf⟩ : ∃ f, fuelFor s = f + 3 := ⟨fuelFor s - 3, by unfold fuelFor; omega⟩
  rw [hf]
  have hd := drop_cons_of_getElem hg
  rcases hc with hc | hc <;> subst hc <;>
    simp +decide [mall, hd, List.isPrefixOf]

theorem char_of_toNat {c : Char} {n : Nat} (h : c.toNat = n) :
    c = Char.ofNat n := by
  rw [← h, Char.ofNat_toNat]

/-- Part (a) of C5: the toplevel grammar matches at every in-range position
whose character is not U+2028/U+2029 (the newline rule catches CR/LF, the
catch-all junk rule everything else). -/
theorem toplevel_scan_total {s : List Char} {cap pos : Nat} {c : Char}
    (hlt : pos < s.length) (hcap : pos < cap) (hg : s[pos]? = some c)
    (hsep : c.toNat ≠ 0x2028 ∧ c.toNat ≠ 0x2029) :
    (scanRules toplevel s cap pos).isSome = true := by
  cases hs : scanRules toplevel s cap pos with
  | some tk => rfl
  | none =>
    exfalso
    unfold scanRules at hs
    rw [if_pos ⟨hlt, hcap⟩] at hs
    have hall := firstRule_none hs
    by_cases hr : c = '\r' ∨ c = '\n'
    · have h1 := nl_matches hg hr
      have h2 := hall nlRule "ws" (by simp [toplevel])
      rw [h2] at h1
      simp at h1
    · push_neg at hr
      have h10 : c.toNat ≠ 10 := by
        intro hn
        exact hr.2 (by rw [char_of_toNat hn])
      have h13 : c.toNat ≠ 13 := by
        intro hn
        exact hr.1 (by rw [char_of_toNat hn])
      have hdot : jsDot c = true := by
        simp [jsDot, h10, h13, hsep.1, hsep.2]
      have h1 := junk_matches hg hdot
      have h2 := hall junkRule "junk" (by simp [toplevel])
      rw [h2] at h1
      cases h1

/-- Part (b) of C5: when each of the thirteen earlier toplevel rules fails at
an in-range position whose character is not U+2028/U+2029, the scan
classifies that single character as a `junk` token. -/
theorem junk_classification {s : List Char} {cap pos : Nat} {c : Char}
    (hlt : pos < s.length) (hcap : pos < cap) (hg : s[pos]? = some c)
    (hfail : ∀ r ty, (r, ty) ∈ toplevel.take 13 → matchLen r s pos = none)
    (hsep : c.toNat ≠ 0x2028 ∧ c.toNat ≠ 0x2029) :
    scanRules toplevel s cap pos =
      some { type := "junk", raw := [c], offset := pos } := by
  have h0 : matchLen wsRule s pos = none := hfail wsRule "ws" (by simp [toplevel])
  have h1 : matchLen nlRule s pos = none := hfail nlRule "ws" (by simp [toplevel])
  have h2 : matchLen commentRule s pos = none := hfail commentRule "comment" (by simp [toplevel])
  have h3 : matchLen openRule s pos = none := hfail openRule "open" (by simp [toplevel])
  have h4 : matchLen closeRule s pos = none := hfail closeRule "close" (by simp [toplevel])
  have h5 : matchLen ignoreRule s pos = none := hfail ignoreRule "ignore" (by simp [toplevel])
  have h6 : matchLen charLitRule s pos = none := hfail charLitRule "lit" (by simp [toplevel])
  have h7 : matchLen litWordRule s pos = none := hfail litWordRule "lit" (by simp [toplevel])
  have h8 : matchLen radixRule s pos = none := hfail radixRule "lit" (by simp [toplevel])
  have h9 : matchLen numberRule s pos = none := hfail numberRule "lit" (by simp [toplevel])
  have h10 : matchLen kwRule s pos = none := hfail kwRule "kw" (by simp [toplevel])
  have h11 : matchLen readerRule s pos = none := hfail readerRule "reader" (by simp [toplevel])
  have h12 : matchLen idRule s pos = none := hfail idRule "id" (by simp [toplevel])
  have hc10 : c.toNat ≠ 10 := by
    intro hn
    have := nl_matches hg (Or.inr (by rw [char_of_toNat hn]))
    rw [h1] at this
    simp at this
  have hc13 : c.toNat ≠ 13 := by
    intro hn
    have := nl_matches hg (Or.inl (by rw [char_of_toNat hn]))
    rw [h1] at this
    simp at this
  have hdot : jsDot c = true := by
    simp [jsDot, hc10, hc13, hsep.1, hsep.2]
  have hjunk := junk_matches hg hdot
  have hsl : sl s pos (pos + 1) = [c] := by
    rw [sl_head (by omega) hg]
    simp [sl]
  unfold scanRules
  rw [if_pos ⟨hlt, hcap⟩]
  unfold toplevel
  simp only [firstRule, h0, h1, h2, h3, h4, h5, h6, h7, h8, h9, h10, h11, h12,
    hjunk, hsl]

theorem head_word_char {s : List Char} {pos e : Nat} {w : List Char} {c : Char}
    (hsl : sl s pos e = w)
    (hw : w = "true".data ∨ w = "false".data ∨ w = "nil".data)
    (hg : s[pos]? = some c) : c = 't' ∨ c = 'f' ∨ c = 'n' := by
  rcases hw with rfl | rfl | rfl
  · have h1 : sl s pos e = 't' :: "rue".data := hsl
    have h2 := sl_cons_head h1
    rw [hg] at h2
    injection h2 with he
    exact Or.inl he
  · have h1 : sl s pos e = 'f' :: "alse".data := hsl
    have h2 := sl_cons_head h1
    rw [hg] at h2
    injection h2 with he
    exact Or.inr (Or.inl he)
  · have h1 : sl s pos e = 'n' :: "il".data := hsl
    have h2 := sl_cons_head h1
    rw [hg] at h2
    injection h2 with he
    exact Or.inr (Or.inr he)

theorem stepToken_emit {st : ScannerState} {tk : LexToken} {t0 : Token}
    (h : (stepToken st tk).1 = some t0) :
    t0.type = tk.type ∧
      (t0.raw = tk.raw ∨ ∃ pre, t0.raw = pre ++ '\n' :: tk.raw) := by
  unfold stepToken at h
  by_cases hq : endsWithQuote tk.raw
  · simp only [hq, if_true] at h
    cases h
    exact ⟨rfl, Or.inl rfl⟩
  · by_cases hr : tk.type = "reader"
    · simp [hq, hr] at h
    · cases hp : st.currentReaderToken with
      | none =>
        simp only [hq, hr, hp, if_false, Bool.false_eq_true] at h
        cases h
        exact ⟨rfl, Or.inl rfl⟩
      | some pend =>
        by_cases hwc : tk.type = "ws" ∨ tk.type = "comment"
        · simp [hq, hr, hp, hwc] at h
        · simp only [hq, hr, hp, hwc, if_false, Bool.false_eq_true] at h
          cases h
          exact ⟨rfl, Or.inr ⟨_, rfl⟩⟩

/-- Provenance of emitted tokens: every token of a `processLoop` run is the
end-of-line sentinel or arises from a successful scan of one of the two
grammars — with the scanned token's kind, and either its exact raw text or
(for a reader-merge) a raw text containing the inserted newline. -/
theorem loop_emits (line : List Char) (cap : Nat) :
    ∀ (fuel pos : Nat) (st : ScannerState) (t : Token),
    t ∈ (processLoop line cap fuel pos st).1 →
    t.type = "eol" ∨
    ∃ g p tk, (g = toplevel ∨ g = inString) ∧
      scanRules g line cap p = some tk ∧ t.type = tk.type ∧
      (t.raw = tk.raw ∨ ∃ pre, t.raw = pre ++ '\n' :: tk.raw) := by
  intro fuel
  induction fuel with
  | zero =>
    intro pos st t ht
    rw [processLoop] at ht
    simp at ht
    rw [ht]
    exact Or.inl rfl
  | succ fuel ih =>
    intro pos st t ht
    rw [processLoop] at ht
    cases hscan : scanRules (if st.inString then inString else toplevel)
        line cap pos with
    | none =>
      rw [hscan] at ht
      simp at ht
      rw [ht]
      exact Or.inl rfl
    | some tk =>
      rw [hscan] at ht
      have hgq : (if st.inString then inString else toplevel) = toplevel ∨
          (if st.inString then inString else toplevel) = inString := by
        by_cases hs : st.inString <;> simp [hs]
      cases hemit : (stepToken st tk).1 with
      | none =>
        simp only [hemit] at ht
        exact ih _ _ t ht
      | some t0 =>
        simp only [hemit, List.mem_cons] at ht
        rcases ht with rfl | ht
        · obtain ⟨h1, h2⟩ := stepToken_emit hemit
          exact Or.inr ⟨_, pos, tk, hgq, hscan, h1, h2⟩
        · exact ih _ _ t ht

/-- C5 (amended): `processLine` is total and never fails; any in-range
character other than U+2028/U+2029 is matched by the toplevel grammar, and
when all thirteen earlier rules fail such a character is classified as a
one-code-point `junk` token by the catch-all last rule; an unterminated
string simply leaves `inString = true` in the returned state, with the
sentinel still emitted.  (U+2028/U+2029 are matched by no toplevel rule —
ECMAScript `.` excludes line terminators — and end the line's scan early,
still without any error.) -/
theorem processLine_total_safe :
    (∀ (s : List Char) (cap pos : Nat) (c : Char),
      pos < s.length → pos < cap → s[pos]? = some c →
      c.toNat ≠ 0x2028 → c.toNat ≠ 0x2029 →
      (scanRules toplevel s cap pos).isSome = true) ∧
    (∀ (s : List Char) (cap pos : Nat) (c : Char),
      pos < s.length → pos < cap → s[pos]? = some c →
      (∀ r ty, (r, ty) ∈ toplevel.take 13 → matchLen r s pos = none) →
      c.toNat ≠ 0x2028 → c.toNat ≠ 0x2029 →
      scanRules toplevel s cap pos =
        some { type := "junk", raw := [c], offset := pos }) ∧
    ((processLine 100 "\"abc".data initialState).2.inString = true ∧
      (processLine 100 "\"abc".data initialState).1.getLast? =
        some (eolTok "\"abc".data (ScannerState.mk true none))) :=
  ⟨fun s cap pos c h1 h2 h3 h4 h5 => toplevel_scan_total h1 h2 h3 ⟨h4, h5⟩,
   fun s cap pos c h1 h2 h3 hf h4 h5 => junk_classification h1 h2 h3 hf ⟨h4, h5⟩,
   by decide, by decide⟩

/-- C5 is false as stated: at the single-character line U+2028 every one of
the thirteen earlier toplevel rules fails, yet the character is not
classified as a `junk` token — the catch-all `.` rule does not match a line
separator either, and the call returns only the sentinel (still with no
error). -/
theorem junk_catchall_cex :
    ((toplevel.take 13).all fun p => (matchLen p.1 sepLine 0).isNone) = true ∧
    sepLine.length = 1 ∧
    (processLine 100 sepLine initialState).1 = [eolTok sepLine initialState] :=
  ⟨by decide, by decide, by decide⟩

theorem processLine_total_safe_witness :
    (0 < "@".data.length ∧ 0 < 7 ∧ "@".data[0]? = some '@' ∧
      ('@').toNat ≠ 0x2028 ∧ ('@').toNat ≠ 0x2029) ∧
    (scanRules toplevel "@".data 7 0).isSome = true :=
  ⟨⟨by decide, by decide, by decide, by decide, by decide⟩,
    processLine_total_safe.1 "@".data 7 0 '@' (by decide) (by decide) (by decide)
      (by decide) (by decide)⟩

/-! ## Positive-fuel unfolding of the matcher -/

theorem mall_cls_pos {f : Nat} {p : Char → Bool} {s : List Char} {i : Nat}
    (h : 0 < f) :
    mall f (.cls p) s i =
      (match s[i]? with
       | some c => if p c then [i + 1] else []
       | none => []) := by
  cases f with
  | zero => omega
  | succ f => rfl

theorem mall_str_pos {f : Nat} {cs s : List Char} {i : Nat} (h : 0 < f) :
    mall f (.str cs) s i =
      (if cs.isPrefixOf (s.drop i) then [i + cs.length] else []) := by
  cases f with
  | zero => omega
  | succ f => rfl

theorem mall_cat_pos {f : Nat} {a b : Regex} {s : List Char} {i : Nat}
    (h : 0 < f) :
    mall f (.cat a b) s i =
      (mall (f - 1) a s i).flatMap (fun j => mall (f - 1) b s j) := by
  cases f with
  | zero => omega
  | succ f => rfl

theorem mall_alt_pos {f : Nat} {a b : Regex} {s : List Char} {i : Nat}
    (h : 0 < f) :
    mall f (.alt a b) s i = mall (f - 1) a s i ++ mall (f - 1) b s i := by
  cases f with
  | zero => omega
  | succ f => rfl

theorem mall_star_pos {f : Nat} {a : Regex} {s : List Char} {i : Nat}
    (h : 0 < f) :
    mall f (.star a) s i =
      (((mall (f - 1) a s i).filter (fun j => i < j)).flatMap
        (fun j => mall (f - 1) (.star a) s j)) ++ [i] := by
  cases f with
  | zero => omega
  | succ f => rfl

/-! ## Prefix-cluster facts -/

theorem clusterOf_nil : clusterOf [] = [] := rfl

theorem clusterOf_cons (c : Char) (run : List Char)
    (bs : List (Char × List Char)) :
    clusterOf ((c, run) :: bs) = c :: (run ++ clusterOf bs) := by
  simp [clusterOf]

theorem cluster_chars {blocks : List (Char × List Char)}
    (hwf : WFBlocks blocks) :
    ∀ c ∈ clusterOf blocks, prefLitCls c = true ∨ jsWs c = true := by
  intro c hc
  unfold clusterOf at hc
  rw [List.mem_flatMap] at hc
  obtain ⟨b, hb, hmem⟩ := hc
  obtain ⟨h1, h2⟩ := hwf b hb
  rcases List.mem_cons.mp hmem with rfl | hmem'
  · exact Or.inl h1
  · exact Or.inr (h2 c hmem')

/-- A greedy whitespace star can consume exactly a given whitespace run. -/
theorem wsStar_path : ∀ (run : List Char) (s rest : List Char) (i f : Nat),
    (∀ c ∈ run, jsWs c = true) → s.drop i = run ++ rest →
    run.length + 1 ≤ f →
    (i + run.length) ∈ mall f (.star (.cls jsWs)) s i := by
  intro run
  induction run with
  | nil =>
    intro s rest i f _ _ hf
    rw [mall_star_pos (by omega)]
    simp
  | cons c run ih =>
    intro s rest i f hws hd hf
    simp only [List.length_cons] at hf
    have hgi : s[i]? = some c := by
      rw [← List.head?_drop, hd]
      rfl
    have hd' : s.drop (i + 1) = run ++ rest := by
      rw [← List.drop_drop, hd]
      rfl
    rw [mall_star_pos (by omega)]
    rw [List.mem_append]
    left
    rw [List.mem_flatMap]
    refine ⟨i + 1, ?_, ?_⟩
    · rw [List.mem_filter]
      refine ⟨?_, by simp⟩
      rw [mall_cls_pos (by omega), hgi]
      simp [hws c (by simp)]
    · have hrec := ih s rest (i + 1) (f - 1)
        (fun d hd0 => hws d (by simp [hd0])) hd' (by omega)
      have harith : i + 1 + run.length = i + (run.length + 1) := by omega
      rw [harith] at hrec
      simpa using hrec

/-- The literal rules' prefix star can consume exactly a well-formed
cluster. -/
theorem blocks_path : ∀ (blocks : List (Char × List Char)) (s rest : List Char)
    (i f : Nat), WFBlocks blocks → s.drop i = clusterOf blocks ++ rest →
    2 * (clusterOf blocks).length + 2 ≤ f →
    (i + (clusterOf blocks).length) ∈ mall f prefLitStar s i := by
  intro blocks
  induction blocks with
  | nil =>
    intro s rest i f _ _ hf
    unfold prefLitStar
    rw [mall_star_pos (by omega)]
    simp [clusterOf_nil]
  | cons b bs ih =>
    intro s rest i f hwf hd hf
    obtain ⟨c, run⟩ := b
    rw [clusterOf_cons] at hd hf ⊢
    simp only [List.length_cons, List.length_append] at hf
    obtain ⟨hc0, hrun⟩ := hwf (c, run) (by simp)
    have hc : prefLitCls c = true := hc0
    have hgi : s[i]? = some c := by
      rw [← List.head?_drop, hd]
      rfl
    have hd1 : s.drop (i + 1) = run ++ (clusterOf bs ++ rest) := by
      rw [← List.drop_drop, hd]
      simp
    have hdj : s.drop (i + 1 + run.length) = clusterOf bs ++ rest := by
      rw [← List.drop_drop, hd1]
      rw [List.drop_append_of_le_length (Nat.le_refl _)]
      simp
    unfold prefLitStar
    rw [mall_star_pos (by omega)]
    rw [List.mem_append]
    left
    rw [List.mem_flatMap]
    refine ⟨i + 1 + run.length, ?_, ?_⟩
    · rw [List.mem_filter]
      refine ⟨?_, by simp; omega⟩
      rw [mall_cat_pos (by omega)]
      rw [List.mem_flatMap]
      refine ⟨i + 1, ?_, ?_⟩
      · rw [mall_cls_pos (by omega), hgi]
        simp [hc]
      · exact wsStar_path run s (clusterOf bs ++ rest) (i + 1) (f - 1 - 1)
          (fun d hd0 => hrun d hd0) hd1 (by omega)
    · have hbs : WFBlocks bs := fun b hb => hwf b (by simp [hb])
      have hrec := ih s rest (i + 1 + run.length) (f - 1) hbs hdj (by omega)
      unfold prefLitStar at hrec
      have harith : i + 1 + run.length + (clusterOf bs).length =
          i + (c :: (run ++ clusterOf bs)).length := by
        simp
        omega
      rwa [harith] at hrec

/-- The literal-word rule matches wherever a well-formed prefix cluster
followed by one of the literal words begins. -/
theorem litWordCluster_matches {s : List Char} {i : Nat}
    {blocks : List (Char × List Char)} {w rest : List Char}
    (hwf : WFBlocks blocks)
    (hw : w = "true".data ∨ w = "false".data ∨ w = "nil".data)
    (hd : s.drop i = clusterOf blocks ++ (w ++ rest)) :
    (matchLen litWordRule s i).isSome = true := by
  unfold matchLen litWordRule
  have hclen : (clusterOf blocks).length ≤ s.length := by
    have := congrArg List.length hd
    simp [List.length_drop, List.length_append] at this
    omega
  have hfuel : 2 * (clusterOf blocks).length + 2 ≤ fuelFor s - 1 := by
    unfold fuelFor
    omega
  have hj := blocks_path blocks s (w ++ rest) i (fuelFor s - 1) hwf hd hfuel
  have hdj : s.drop (i + (clusterOf blocks).length) = w ++ rest := by
    rw [← List.drop_drop, hd]
    rw [List.drop_append_of_le_length (Nat.le_refl _)]
    simp
  have hpre : w.isPrefixOf (s.drop (i + (clusterOf blocks).length)) = true := by
    rw [hdj]
    exact List.isPrefixOf_iff_prefix.mpr ⟨rest, rfl⟩
  have hlits : (i + (clusterOf blocks).length + w.length) ∈
      mall (fuelFor s - 1)
        (.alt (.str "true".data) (.alt (.str "false".data) (.str "nil".data)))
        s (i + (clusterOf blocks).length) := by
    rw [mall_alt_pos (by unfold fuelFor; omega)]
    rw [List.mem_append]
    rcases hw with rfl | rfl | rfl
    · left
      rw [mall_str_pos (by unfold fuelFor; omega), if_pos hpre]
      simp
    · right
      rw [mall_alt_pos (by unfold fuelFor; omega), List.mem_append]
      left
      rw [mall_str_pos (by unfold fuelFor; omega), if_pos hpre]
      simp
    · right
      rw [mall_alt_pos (by unfold fuelFor; omega), List.mem_append]
      right
      rw [mall_str_pos (by unfold fuelFor; omega), if_pos hpre]
      simp
  have hmem : (i + (clusterOf blocks).length + w.length) ∈
      mall (fuelFor s) litWordRule s i := by
    unfold litWordRule
    rw [mall_cat_pos (by unfold fuelFor; omega)]
    rw [List.mem_flatMap]
    exact ⟨i + (clusterOf blocks).length, hj, hlits⟩
  have hne : mall (fuelFor s) litWordRule s i ≠ [] :=
    List.ne_nil_of_mem hmem
  unfold litWordRule at hne
  cases hm : mall (fuelFor s)
      (.cat prefLitStar
        (.alt (.str "true".data) (.alt (.str "false".data) (.str "nil".data))))
      s i with
  | nil => exact absurd hm hne
  | cons a l => simp [hm]

theorem prefLit_cases {c : Char} (h : prefLitCls c = true) :
    c = cQuote ∨ c = cBacktick ∨ c = '~' ∨ c = '#' := by
  unfold prefLitCls at h
  simp only [Bool.or_eq_true, beq_iff_eq] at h
  tauto

/-- The first character of a prefix cluster followed by a literal word. -/
theorem cluster_word_head {s : List Char} {pos e : Nat}
    {blocks : List (Char × List Char)} {w : List Char}
    (hwf : WFBlocks blocks)
    (hw : w = "true".data ∨ w = "false".data ∨ w = "nil".data)
    (hsl : sl s pos e = clusterOf blocks ++ w) :
    ∃ c, s[pos]? = some c ∧
      (c = cQuote ∨ c = cBacktick ∨ c = '~' ∨ c = '#' ∨
       c = 't' ∨ c = 'f' ∨ c = 'n') := by
  cases blocks with
  | nil =>
    rw [clusterOf_nil, List.nil_append] at hsl
    have hex : ∃ c, s[pos]? = some c ∧ (c = 't' ∨ c = 'f' ∨ c = 'n') := by
      rcases hw with rfl | rfl | rfl
      · exact ⟨'t', sl_cons_head (hsl.trans rfl), Or.inl rfl⟩
      · exact ⟨'f', sl_cons_head (hsl.trans rfl), Or.inr (Or.inl rfl)⟩
      · exact ⟨'n', sl_cons_head (hsl.trans rfl), Or.inr (Or.inr rfl)⟩
    obtain ⟨c, hg, hc⟩ := hex
    exact ⟨c, hg, by tauto⟩
  | cons b bs =>
    obtain ⟨c0, run⟩ := b
    rw [clusterOf_cons, List.cons_append] at hsl
    have hg := sl_cons_head hsl
    have hc0 : prefLitCls c0 = true := (hwf (c0, run) (by simp)).1
    exact ⟨c0, hg, by rcases prefLit_cases hc0 with h | h | h | h <;> tauto⟩

/-- The last character of a prefix cluster followed by a literal word. -/
theorem cluster_word_last {s : List Char} {pos e : Nat}
    {blocks : List (Char × List Char)} {w : List Char} {c : Char}
    (hw : w = "true".data ∨ w = "false".data ∨ w = "nil".data)
    (hsl : sl s pos e = clusterOf blocks ++ w)
    (hpe : pos < e) (hew : e ≤ s.length)
    (hg : s[e - 1]? = some c) : c = 'e' ∨ c = 'l' := by
  have h1 := sl_getLast hpe hew hg
  rw [hsl] at h1
  rcases hw with rfl | rfl | rfl
  · have hwl : "true".data.getLast? = some 'e' := by decide
    rw [List.getLast?_append, hwl, Option.or_some] at h1
    injection h1 with he
    exact Or.inl he.symm
  · have hwl : "false".data.getLast? = some 'e' := by decide
    rw [List.getLast?_append, hwl, Option.or_some] at h1
    injection h1 with he
    exact Or.inl he.symm
  · have hwl : "nil".data.getLast? = some 'l' := by decide
    rw [List.getLast?_append, hwl, Option.or_some] at h1
    injection h1 with he
    exact Or.inr he.symm

theorem word_no_newline {w : List Char}
    (hw : w = "true".data ∨ w = "false".data ∨ w = "nil".data) :
    '\n' ∉ w := by
  rcases hw with rfl | rfl | rfl <;> decide

theorem idRule_head {s : List Char} {i e : Nat}
    (h : matchLen idRule s i = some e) :
    ∃ c, s[i]? = some c ∧ (prefIdCls c = true ∨ idFirstCls c = true) := by
  have hm := matchLen_sound h
  unfold idRule at hm
  rcases mat_head_clsStar hm with h1 | ⟨c, hg, hp⟩
  · obtain ⟨c, hg, hp⟩ := mat_head_cls h1
    exact ⟨c, hg, Or.inr hp⟩
  · exact ⟨c, hg, Or.inl hp⟩

theorem prefId_not_ws {c : Char} (h : prefIdCls c = true) : jsWs c = false := by
  unfold prefIdCls at h
  simp only [Bool.or_eq_true, beq_iff_eq] at h
  rcases h with ((((rfl | rfl) | rfl) | rfl) | rfl) | rfl <;> decide

theorem idFirst_not_ws {c : Char} (h : idFirstCls c = true) : jsWs c = false := by
  unfold idFirstCls at h
  simp only [Bool.not_eq_eq_eq_not, Bool.not_true, Bool.or_eq_false_iff] at h
  tauto

/-- Aligning a merged raw text `pre ++ newline ++ tkraw` with a cluster
followed by a newline-free word: the newline falls inside the cluster, and
the scanned token's raw text is the cluster's tail after it, still followed
by the word. -/
theorem split_at_newline {cluster w pre tkraw : List Char}
    (h : cluster ++ w = pre ++ '\n' :: tkraw) (hnl : '\n' ∉ w) :
    pre.length < cluster.length ∧
      tkraw = cluster.drop (pre.length + 1) ++ w := by
  have hlen_lt : pre.length < cluster.length := by
    by_contra hge
    push_neg at hge
    have h1 : (cluster ++ w)[pre.length]? = some '\n' := by
      rw [h]
      rw [List.getElem?_append_right (Nat.le_refl _)]
      simp
    rw [List.getElem?_append_right hge] at h1
    exact hnl (List.getElem?_mem h1)
  refine ⟨hlen_lt, ?_⟩
  have h2 := congrArg (List.drop (pre.length + 1)) h
  rw [List.drop_append_of_le_length (by omega), List.drop_append] at h2
  simpa using h2.symm

/-- Any suffix of a well-formed cluster is a whitespace run followed by a
well-formed cluster. -/
theorem cluster_drop : ∀ (blocks : List (Char × List Char)),
    WFBlocks blocks → ∀ m, ∃ ws bs,
      (clusterOf blocks).drop m = ws ++ clusterOf bs ∧
      (∀ c ∈ ws, jsWs c = true) ∧ WFBlocks bs := by
  intro blocks
  induction blocks with
  | nil =>
    intro _ m
    refine ⟨[], [], by simp [clusterOf_nil], by simp, ?_⟩
    intro b hb
    simp at hb
  | cons b bs ih =>
    intro hwf m
    obtain ⟨c, run⟩ := b
    have hbs : WFBlocks bs := fun b hb => hwf b (by simp [hb])
    cases m with
    | zero => exact ⟨[], (c, run) :: bs, by simp, by simp, hwf⟩
    | succ m2 =>
      rw [clusterOf_cons, List.drop_succ_cons]
      by_cases hm : m2 ≤ run.length
      · refine ⟨run.drop m2, bs, ?_, ?_, hbs⟩
        · rw [List.drop_append_of_le_length hm]
        · intro d hd0
          exact (hwf (c, run) (by simp)).2 d (List.mem_of_mem_drop hd0)
      · obtain ⟨ws, bs2, h1, h2, h3⟩ := ih hbs (m2 - run.length)
        refine ⟨ws, bs2, ?_, h2, h3⟩
        rw [show m2 = run.length + (m2 - run.length) from by omega,
          List.drop_append]
        exact h1

/-- A rule placed after the literal-word rule can never fire at a position
where a well-formed prefix cluster followed by a literal word begins. -/
theorem no_late_rule {s : List Char} {pos e : Nat}
    {blocks : List (Char × List Char)} {w : List Char}
    (hwf : WFBlocks blocks)
    (hw : w = "true".data ∨ w = "false".data ∨ w = "nil".data)
    (hraw : sl s pos e = clusterOf blocks ++ w)
    (hm7 : matchLen litWordRule s pos = none) : False := by
  have hsplit := List.take_append_drop (e - pos) (s.drop pos)
  have hd : s.drop pos =
      clusterOf blocks ++ (w ++ (s.drop pos).drop (e - pos)) := by
    conv_lhs => rw [← hsplit]
    rw [show (s.drop pos).take (e - pos) = sl s pos e from rfl, hraw,
      List.append_assoc]
  have hiss := litWordCluster_matches hwf hw hd
  rw [hm7] at hiss
  simp at hiss

/-- The generalized first conjunct of C7: a toplevel scan whose raw text is a
well-formed literal-rule prefix cluster followed by `true`, `false` or `nil`
is classified `lit`. -/
theorem scan_cluster_word_lit {s : List Char} {cap pos : Nat} {tk : LexToken}
    {blocks : List (Char × List Char)} {w : List Char}
    (h : scanRules toplevel s cap pos = some tk)
    (hwf : WFBlocks blocks)
    (hw : w = "true".data ∨ w = "false".data ∨ w = "nil".data)
    (hraw : tk.raw = clusterOf blocks ++ w) :
    tk.type = "lit" := by
  obtain ⟨hlt, hcap, -⟩ := scan_sound h
  unfold scanRules at h
  rw [if_pos ⟨hlt, hcap⟩] at h
  unfold toplevel at h
  rw [firstRule] at h
  cases hm0 : matchLen wsRule s pos with
  | some e0 =>
    rw [hm0] at h
    cases h
    exfalso
    obtain ⟨c, hg, hp⟩ := wsRule_head hm0
    have hraw2 : sl s pos e0 = clusterOf blocks ++ w := hraw
    obtain ⟨c0, hg0, hc0⟩ := cluster_word_head hwf hw hraw2
    rw [hg] at hg0
    injection hg0 with he
    subst he
    rcases hc0 with rfl | rfl | rfl | rfl | rfl | rfl | rfl <;>
      exact absurd hp (by decide)
  | none =>
  rw [hm0, firstRule] at h
  cases hm1 : matchLen nlRule s pos with
  | some e1 =>
    rw [hm1] at h
    cases h
    exfalso
    obtain ⟨c, hg, hp⟩ := nlRule_head hm1
    have hraw2 : sl s pos e1 = clusterOf blocks ++ w := hraw
    obtain ⟨c0, hg0, hc0⟩ := cluster_word_head hwf hw hraw2
    rw [hg] at hg0
    injection hg0 with he
    subst he
    rcases hc0 with rfl | rfl | rfl | rfl | rfl | rfl | rfl <;>
      exact absurd hp (by decide)
  | none =>
  rw [hm1, firstRule] at h
  cases hm2 : matchLen commentRule s pos with
  | some e2 =>
    rw [hm2] at h
    cases h
    exfalso
    obtain ⟨c, hg, hp⟩ := commentRule_head hm2
    have hraw2 : sl s pos e2 = clusterOf blocks ++ w := hraw
    obtain ⟨c0, hg0, hc0⟩ := cluster_word_head hwf hw hraw2
    rw [hg] at hg0
    injection hg0 with he
    subst he
    rcases hc0 with rfl | rfl | rfl | rfl | rfl | rfl | rfl <;>
      exact absurd hp (by decide)
  | none =>
  rw [hm2, firstRule] at h
  cases hm3 : matchLen openRule s pos with
  | some e3 =>
    rw [hm3] at h
    cases h
    exfalso
    obtain ⟨c, hg, hp⟩ := openRule_last hm3
    have hpe : pos < e3 := matchLen_pos hm3 (by decide)
    have hew : e3 ≤ s.length :=
      mat_within (matchLen_sound hm3) (Nat.le_of_lt hlt)
    have hraw2 : sl s pos e3 = clusterOf blocks ++ w := hraw
    rcases cluster_word_last hw hraw2 hpe hew hg with rfl | rfl <;>
      exact absurd hp (by decide)
  | none =>
  rw [hm3, firstRule] at h
  cases hm4 : matchLen closeRule s pos with
  | some e4 =>
    rw [hm4] at h
    cases h
    exfalso
    obtain ⟨c, hg, hp⟩ := closeRule_head hm4
    have hraw2 : sl s pos e4 = clusterOf blocks ++ w := hraw
    obtain ⟨c0, hg0, hc0⟩ := cluster_word_head hwf hw hraw2
    rw [hg] at hg0
    injection hg0 with he
    subst he
    rcases hc0 with rfl | rfl | rfl | rfl | rfl | rfl | rfl <;>
      exact absurd hp (by decide)
  | none =>
  rw [hm4, firstRule] at h
  cases hm5 : matchLen ignoreRule s pos with
  | some e5 =>
    rw [hm5] at h
    cases h
    exfalso
    have hmm := matchLen_sound hm5
    unfold ignoreRule at hmm
    obtain ⟨he5, hp5⟩ := mat_str_inv hmm
    obtain ⟨t, ht⟩ := List.isPrefixOf_iff_prefix.mp hp5
    have hraw2 : sl s pos e5 = clusterOf blocks ++ w := hraw
    have hsl2 : sl s pos e5 = ['#', '_'] := by
      rw [he5]
      unfold sl
      rw [← ht]
      simp
    have hcomb : clusterOf blocks ++ w = ['#', '_'] := by
      rw [← hraw2, hsl2]
    have hmem : '_' ∈ clusterOf blocks ++ w := by
      rw [hcomb]
      decide
    rcases List.mem_append.mp hmem with hmem' | hmem'
    · rcases cluster_chars hwf '_' hmem' with hx | hx <;>
        exact absurd hx (by decide)
    · rcases hw with rfl | rfl | rfl <;> exact absurd hmem' (by decide)
  | none =>
  rw [hm5, firstRule] at h
  cases hm6 : matchLen charLitRule s pos with
  | some e6 =>
    rw [hm6] at h
    cases h
    exfalso
    obtain ⟨c, hg, hp⟩ := charLitRule_head hm6
    have hraw2 : sl s pos e6 = clusterOf blocks ++ w := hraw
    obtain ⟨c0, hg0, hc0⟩ := cluster_word_head hwf hw hraw2
    rw [hg] at hg0
    injection hg0 with he
    subst he
    rcases hc0 with rfl | rfl | rfl | rfl | rfl | rfl | rfl <;>
      exact absurd hp (by decide)
  | none =>
  rw [hm6, firstRule] at h
  cases hm7 : matchLen litWordRule s pos with
  | some e7 =>
    rw [hm7] at h
    cases h
    rfl
  | none =>
  rw [hm7, firstRule] at h
  cases hm8 : matchLen radixRule s pos with
  | some e8 =>
    rw [hm8] at h
    cases h
    exact absurd hm7 (fun hn => no_late_rule hwf hw hraw hn)
  | none =>
  rw [hm8, firstRule] at h
  cases hm9 : matchLen numberRule s pos with
  | some e9 =>
    rw [hm9] at h
    cases h
    exact absurd hm7 (fun hn => no_late_rule hwf hw hraw hn)
  | none =>
  rw [hm9, firstRule] at h
  cases hm10 : matchLen kwRule s pos with
  | some e10 =>
    rw [hm10] at h
    cases h
    exact absurd hm7 (fun hn => no_late_rule hwf hw hraw hn)
  | none =>
  rw [hm10, firstRule] at h
  cases hm11 : matchLen readerRule s pos with
  | some e11 =>
    rw [hm11] at h
    cases h
    exact absurd hm7 (fun hn => no_late_rule hwf hw hraw hn)
  | none =>
  rw [hm11, firstRule] at h
  cases hm12 : matchLen idRule s pos with
  | some e12 =>
    rw [hm12] at h
    cases h
    exact absurd hm7 (fun hn => no_late_rule hwf hw hraw hn)
  | none =>
  rw [hm12, firstRule] at h
  cases hm13 : matchLen junkRule s pos with
  | some e13 =>
    rw [hm13] at h
    cases h
    exact absurd hm7 (fun hn => no_late_rule hwf hw hraw hn)
  | none =>
    rw [hm13, firstRule] at h
    cases h

/-- The generalized second conjunct of C7: across a whole `processLine` call
no emitted token whose raw text is a well-formed literal-rule prefix cluster
followed by a literal word carries the `id` kind. -/
theorem processLine_cluster_word {cap : Nat} {line : List Char}
    {st : ScannerState} {t : Token} {blocks : List (Char × List Char)}
    {w : List Char}
    (ht : t ∈ (processLine cap line st).1)
    (hwf : WFBlocks blocks)
    (hw : w = "true".data ∨ w = "false".data ∨ w = "nil".data)
    (hraw : t.raw = clusterOf blocks ++ w) : t.type ≠ "id" := by
  intro habs
  rcases loop_emits line cap (line.length + 1) 0 st t ht with
    heol | ⟨g, p, tk, hg, hscan, hty, hraw2⟩
  · rw [heol] at habs
    exact absurd habs (by decide)
  · have htkid : tk.type = "id" := hty.symm.trans habs
    rcases hg with rfl | rfl
    · rcases hraw2 with hre | ⟨pre, hre⟩
      · have hlit : tk.type = "lit" :=
          scan_cluster_word_lit hscan hwf hw (by rw [← hre, hraw])
        rw [hlit] at htkid
        exact absurd htkid (by decide)
      · have hsplit : clusterOf blocks ++ w = pre ++ '\n' :: tk.raw := by
          rw [← hraw, hre]
        obtain ⟨hlt2, htk⟩ := split_at_newline hsplit (word_no_newline hw)
        obtain ⟨ws2, bs2, hdrop, hws2, hwf2⟩ :=
          cluster_drop blocks hwf (pre.length + 1)
        cases hws0 : ws2 with
        | nil =>
          rw [hws0] at hdrop
          have htk2 : tk.raw = clusterOf bs2 ++ w := by
            rw [htk, hdrop]
            simp
          have hlit : tk.type = "lit" := scan_cluster_word_lit hscan hwf2 hw htk2
          rw [hlit] at htkid
          exact absurd htkid (by decide)
        | cons cw ws3 =>
          rw [hws0] at hdrop
          have hcw : jsWs cw = true := hws2 cw (by rw [hws0]; simp)
          have htk2 : tk.raw = cw :: (ws3 ++ (clusterOf bs2 ++ w)) := by
            rw [htk, hdrop]
            simp
          obtain ⟨hplt, hpcap, r, ty, e, hmem, hml, htk3⟩ := scan_sound hscan
          have hty2 : ty = "id" := by
            rw [htk3] at htkid
            exact htkid
          subst hty2
          have hrid : r = idRule := by
            simp +decide [toplevel] at hmem
            exact hmem
          subst hrid
          obtain ⟨c, hgc, hpc⟩ := idRule_head hml
          have hslh : sl line p e = cw :: (ws3 ++ (clusterOf bs2 ++ w)) := by
            have hx : tk.raw = sl line p e := by rw [htk3]
            rw [← hx]
            exact htk2
          have hgc2 := sl_cons_head hslh
          rw [hgc] at hgc2
          injection hgc2 with he
          subst he
          rcases hpc with hpc | hpc
          · rw [prefId_not_ws hpc] at hcw
            cases hcw
          · rw [idFirst_not_ws hpc] at hcw
            cases hcw
    · obtain ⟨-, -, r, ty, e, hmem, -, htk3⟩ := scan_sound hscan
      have hm : tk.type ∈ inString.map Prod.snd := by
        rw [htk3]
        exact List.mem_map.mpr ⟨(r, ty), hmem, rfl⟩
      rw [htkid] at hm
      simp +decide [inString] at hm

/-- C7 is false as stated: the deref marker `@` is part of the folded
quoting prefix cluster (it is accepted by the open-paren and symbol rules'
cluster classes), yet `@true` tokenizes as a single token of kind `id`, not
`lit` — the literal rule's own cluster class `['`~#]` does not include `@`,
so the generic symbol rule wins and the token containing the literal word is
classified as an identifier. -/
theorem literal_word_id_cex :
    ((processLine 100 "@true".data initialState).1.map fun t => (t.type, t.raw)) =
      [("id", "@true".data), ("eol", ['\n'])] := by decide

/-- C7 (amended): a token whose raw text is one of the literal words `true`,
`false`, `nil`, optionally preceded by a folded quoting prefix cluster drawn
from the literal rule's class `['`~#]` (each prefix character possibly
followed by whitespace), is always classified `lit` by a toplevel scan
(first conjunct) and is never classified `id` anywhere in a `processLine`
call (second conjunct).  Clusters containing the additional marker
characters `@` or `^` are excluded: for those the literal rule does not
match and the token is classified `id` (see the counterexample). -/
theorem literal_words_classification :
    (∀ (s : List Char) (cap pos : Nat) (tk : LexToken)
      (blocks : List (Char × List Char)) (w : List Char),
      scanRules toplevel s cap pos = some tk →
      WFBlocks blocks →
      (w = "true".data ∨ w = "false".data ∨ w = "nil".data) →
      tk.raw = clusterOf blocks ++ w →
      tk.type = "lit") ∧
    (∀ (cap : Nat) (line : List Char) (st : ScannerState) (t : Token)
      (blocks : List (Char × List Char)) (w : List Char),
      t ∈ (processLine cap line st).1 →
      WFBlocks blocks →
      (w = "true".data ∨ w = "false".data ∨ w = "nil".data) →
      t.raw = clusterOf blocks ++ w →
      t.type ≠ "id") :=
  ⟨fun _ _ _ _ _ _ h hwf hw hraw => scan_cluster_word_lit h hwf hw hraw,
   fun _ _ _ _ _ _ ht hwf hw hraw => processLine_cluster_word ht hwf hw hraw⟩

/-- The one-block cluster consisting of a single quote character is
well-formed. -/
theorem wfSingleQuote : WFBlocks [(cQuote, [])] := by
  intro b hb
  simp only [List.mem_singleton] at hb
  subst hb
  refine ⟨by decide, ?_⟩
  intro c hc
  simp at hc

theorem literal_words_classification_witness :
    (scanRules toplevel (cQuote :: "true x".data) 100 0 =
        some (LexToken.mk "lit" (cQuote :: "true".data) 0) ∧
      WFBlocks [(cQuote, [])] ∧
      (LexToken.mk "lit" (cQuote :: "true".data) 0).raw =
        clusterOf [(cQuote, [])] ++ "true".data) ∧
    (LexToken.mk "lit" (cQuote :: "true".data) 0).type = "lit" :=
  ⟨⟨by decide, wfSingleQuote, by decide⟩,
    literal_words_classification.1 (cQuote :: "true x".data) 100 0
      (LexToken.mk "lit" (cQuote :: "true".data) 0) [(cQuote, [])] "true".data
      (by decide) wfSingleQuote (Or.inl rfl) (by decide)⟩
